import Mathlib

/-!
# Verification of the Reverse-Delete MST visualizer core

A shallow embedding of the core of the `fyp_57153709` repository
(graph primitives from `src/lib/graph.ts`, the validation engine from
`src/lib/validation.ts`, the Reverse-Delete trace generator from
`src/lib/reverseDelete.ts`, and the zustand session store from
`src/lib/store.ts`), together with proofs about it.

Modelling conventions:
* JavaScript numbers that can be `undefined`/`null`/`NaN` (edge weights)
  are `Option Int`; `none` models a missing or NaN weight.
* `Array.prototype.sort` (a stable sort) is modelled by stable insertion
  sort with the same comparator semantics (a comparator returning NaN is
  treated as 0, per the ECMAScript `SortCompare` specification).
* The in-place mutation performed by `graph.vertices.sort()` inside
  `getNextVertexLabel` is made explicit: the function returns the label
  together with the graph as it is left after the call.
* JavaScript objects used as string-keyed records (node positions) are
  association lists with insertion-order preserving update semantics.
* The recursive DFS of `isConnected` is an explicit-stack DFS with a fuel
  parameter that provably never runs out (`dfsFuel` bounds the number of
  loop iterations); the visited set is a duplicate-free list.
-/

/-- An edge of the undirected weighted graph (`{u, v, w}` in `types.ts`).
`w` is `Option Int`: `none` models an `undefined`/`null`/NaN weight. -/
structure Edge where
  u : String
  v : String
  w : Option Int
deriving DecidableEq, Repr

/-- `Graph` from `types.ts`: an ordered list of vertex labels and a list of
edges. -/
structure Graph where
  vertices : List String
  edges : List Edge
deriving DecidableEq, Repr

/-- `NodePosition` from `types.ts` (canvas coordinates). -/
structure NodePosition where
  x : Int
  y : Int
deriving DecidableEq, Repr

/-- The kind of a trace step (`Step.type` in `types.ts`). -/
inductive StepType where
  | consider
  | keep
  | delete
  | complete
deriving DecidableEq, Repr

/-- One entry of the Reverse-Delete trace (`Step` in `types.ts`). -/
structure Step where
  type : StepType
  edge : Edge
  explanation : String
  snapshot : Graph
  stepNumber : Nat
deriving DecidableEq, Repr

/-- The `ValidationError.type` union from `types.ts`.  Note the union has a
`multi_edge` member and no `dangling_reference` member. -/
inductive ErrType where
  | duplicate_edge
  | missing_weight
  | negative_weight
  | disconnected
  | self_loop
  | multi_edge
deriving DecidableEq, Repr

/-- `ValidationError` from `types.ts`.  The optional `edge`/`vertex` payloads
are `Option`s (`vertex` is never set by `validateGraph`). -/
structure ValidationError where
  type : ErrType
  message : String
  edge : Option Edge
  vertex : Option String
deriving DecidableEq, Repr

/-! ## Graph primitives (`src/lib/graph.ts`) -/

/-- `edgesEqual` from `graph.ts`: endpoints match in either order, weight
ignored. -/
def edgesEqual (e1 e2 : Edge) : Bool :=
  (e1.u == e2.u && e1.v == e2.v) || (e1.u == e2.v && e1.v == e2.u)

/-- Propositional version of `edgesEqual`. -/
def samePair (e1 e2 : Edge) : Prop :=
  (e1.u = e2.u ∧ e1.v = e2.v) ∨ (e1.u = e2.v ∧ e1.v = e2.u)

instance (e1 e2 : Edge) : Decidable (samePair e1 e2) := by
  unfold samePair; infer_instance

/-- `getEdgesForVertex` from `graph.ts`. -/
def getEdgesForVertex (g : Graph) (vertex : String) : List Edge :=
  g.edges.filter (fun e => e.u == vertex || e.v == vertex)

/-- The adjacency list built by `isConnected`: every vertex gets a list,
and each edge `{u, v}` appends `v` to `u`'s list and `u` to `v`'s list
when the endpoint is a key of the map (i.e. a member of `vertices`);
labels that are not vertices have no list (modelled as `[]`). -/
def adj (g : Graph) (x : String) : List String :=
  if x ∈ g.vertices then
    g.edges.flatMap (fun e =>
      (if e.u = x then [e.v] else []) ++ (if e.v = x then [e.u] else []))
  else []

/-- The set of distinct vertices not yet visited, used only as a
termination measure for the DFS. -/
def unvisitedCount (g : Graph) (visited : List String) : Nat :=
  (g.vertices.toFinset \ visited.toFinset).card

/-- Termination measure of one DFS state. -/
def dfsMeasure (g : Graph) (visited stack : List String) : Nat :=
  (2 * g.edges.length + 1) * unvisitedCount g visited + stack.length

/-- Explicit-stack depth-first traversal of `isConnected` from `graph.ts`.
The fuel strictly exceeds `dfsMeasure` at every call site, so the `0` case
is never taken (see `dfsAux_spec`).  `visited` collects each label once. -/
def dfsAux (g : Graph) : Nat → List String → List String → List String
  | 0, visited, _ => visited
  | _ + 1, visited, [] => visited
  | fuel + 1, visited, x :: rest =>
    if x ∈ visited then dfsAux g fuel visited rest
    else dfsAux g fuel (x :: visited) (adj g x ++ rest)

/-- Fuel that provably suffices for the whole traversal. -/
def dfsFuel (g : Graph) : Nat :=
  (2 * g.edges.length + 1) * (g.vertices.length + 1) + 1

/-- `isConnected` from `graph.ts`: graphs with 0 or 1 vertices are
trivially connected; otherwise DFS from `vertices[0]` must visit exactly
`vertices.length` labels. -/
def isConnected (g : Graph) : Bool :=
  match g.vertices with
  | [] => true
  | [_] => true
  | v0 :: _ :: _ => (dfsAux g (dfsFuel g) [] [v0]).length == g.vertices.length

/-- Lexicographic code-unit comparison of character lists — the order
JavaScript's default sort comparator uses on strings. -/
def charListLt : List Char → List Char → Bool
  | [], [] => false
  | [], _ :: _ => true
  | _ :: _, [] => false
  | c :: cs, d :: ds => if c < d then true else if d < c then false else charListLt cs ds

/-- JavaScript string comparison (`a < b` on strings). -/
def strLt (s t : String) : Bool := charListLt s.data t.data

/-- Stable insertion of a string into an ascending list: the inserted
element goes after any equal element, matching a stable sort. -/
def insertStr (s : String) : List String → List String
  | [] => [s]
  | t :: ts => if strLt s t then s :: t :: ts else t :: insertStr s ts

/-- JavaScript's default stable `Array.prototype.sort` on strings
(code-unit ascending), as a stable insertion sort. -/
def sortStrings (l : List String) : List String :=
  l.foldl (fun acc s => insertStr s acc) []

/-- `getNextVertexLabel` from `graph.ts`.  `graph.vertices.sort()` sorts the
array *in place*, so the function returns both the generated label and the
graph as it is left after the call (its `vertices` now sorted). -/
def getNextVertexLabel (g : Graph) : String × Graph :=
  let labels := sortStrings g.vertices
  let g' : Graph := { vertices := labels, edges := g.edges }
  match labels.getLast? with
  | none => ("A", g')
  | some lastLabel =>
    if lastLabel.length = 1 then
      let nextChar := Char.ofNat ((lastLabel.data.headD 'A').toNat + 1)
      if nextChar ≤ 'Z' then (String.mk [nextChar], g')
      else ("A" ++ toString labels.length, g')
    else ("A" ++ toString labels.length, g')

/-- `cloneGraph` from `graph.ts`: a deep copy. -/
def cloneGraph (g : Graph) : Graph :=
  { vertices := g.vertices, edges := g.edges.map (fun e => { u := e.u, v := e.v, w := e.w }) }

/-- `removeEdge` from `graph.ts`: removes all edges `edgesEqual` to the
given one. -/
def removeEdge (g : Graph) (edge : Edge) : Graph :=
  { g with edges := g.edges.filter (fun e => !(edgesEqual e edge)) }

/-- `addEdge` from `graph.ts`. -/
def addEdge (g : Graph) (edge : Edge) : Graph :=
  { g with edges := g.edges ++ [edge] }

/-! ## Reverse-Delete engine (`src/lib/reverseDelete.ts`) -/

/-- The sort comparator `(a, b) => b.w - a.w`; a NaN result (missing
weight) is treated as `0`, per the ECMAScript `SortCompare` clause. -/
def jsCompare (a b : Edge) : Int :=
  match a.w, b.w with
  | some x, some y => y - x
  | _, _ => 0

/-- Stable insertion for the descending-weight sort: `e` is placed before
the first element it must strictly precede. -/
def insertEdgeDesc (e : Edge) : List Edge → List Edge
  | [] => [e]
  | f :: fs => if jsCompare e f < 0 then e :: f :: fs else f :: insertEdgeDesc e fs

/-- `[...graph.edges].sort((a, b) => b.w - a.w)`: a stable sort by weight
descending, ties keeping input order. -/
def sortEdgesDesc (l : List Edge) : List Edge :=
  l.foldl (fun acc e => insertEdgeDesc e acc) []

/-- Weight rendering inside explanations (`undefined` for a missing w). -/
def wStr : Option Int → String
  | some n => toString n
  | none => "undefined"

/-- `getTotalWeight` from `reverseDelete.ts` (also the `mstWeight` sum in
the completion step); a missing weight poisons the sum to NaN (`none`). -/
def getTotalWeight (g : Graph) : Option Int :=
  g.edges.foldl (fun acc e =>
    match acc, e.w with
    | some a, some b => some (a + b)
    | _, _ => none) (some 0)

/-- Rendering of the total weight in the completion explanation. -/
def totalStr : Option Int → String
  | some n => toString n
  | none => "NaN"

/-- The main loop of `reverseDelete` (lines 37–80): for each sorted edge,
skip it if no longer present, otherwise emit a `consider` step and then a
`keep` or `delete` step.  Returns the emitted steps, the final working
graph and the next step number. -/
def rdLoop : List Edge → Graph → Nat → List Step × Graph × Nat
  | [], cur, sn => ([], cur, sn)
  | e :: rest, cur, sn =>
    if cur.edges.any (fun x => edgesEqual x e) then
      let consider : Step :=
        { type := StepType.consider, edge := e
          explanation := "Considering edge " ++ e.u ++ "-" ++ e.v ++ " with weight " ++
            wStr e.w ++ " (heaviest remaining)."
          snapshot := cloneGraph cur, stepNumber := sn }
      let without := removeEdge cur e
      if isConnected without = false then
        let keep : Step :=
          { type := StepType.keep, edge := e
            explanation := "Keeping edge " ++ e.u ++ "-" ++ e.v ++ " (weight " ++ wStr e.w ++
              "). Removing it would disconnect the graph, so it is part of the MST."
            snapshot := cloneGraph cur, stepNumber := sn + 1 }
        let (steps, fin, sn') := rdLoop rest cur (sn + 2)
        (consider :: keep :: steps, fin, sn')
      else
        let del : Step :=
          { type := StepType.delete, edge := e
            explanation := "Removing edge " ++ e.u ++ "-" ++ e.v ++ " (weight " ++ wStr e.w ++
              "). Graph remains connected, so this edge is not needed for the MST."
            snapshot := cloneGraph without, stepNumber := sn + 1 }
        let (steps, fin, sn') := rdLoop rest without (sn + 2)
        (consider :: del :: steps, fin, sn')
    else rdLoop rest cur sn

/-- `reverseDelete` from `reverseDelete.ts`: sort edges by weight
descending, emit the initial `consider` step, run the loop, and append the
terminal `complete` step. -/
def reverseDelete (g : Graph) : List Step :=
  let cur := cloneGraph g
  match h : sortEdgesDesc g.edges with
  | [] => []
  | e0 :: _ =>
    let sorted := sortEdgesDesc g.edges
    let initial : Step :=
      { type := StepType.consider, edge := e0
        explanation :=
          "Starting Reverse-Delete algorithm. We will process edges in descending order of weight."
        snapshot := cloneGraph cur, stepNumber := 0 }
    let (steps, fin, sn') := rdLoop sorted cur 1
    let lastEdge := sorted.getLast (by simp [sorted, h])
    let completeStep : Step :=
      { type := StepType.complete, edge := lastEdge
        explanation := "Algorithm complete! The MST has " ++ toString fin.edges.length ++
          " edges with total weight " ++ totalStr (getTotalWeight fin) ++ "."
        snapshot := cloneGraph fin, stepNumber := sn' }
    initial :: (steps ++ [completeStep])

/-! ## Validation engine (`src/lib/validation.ts`) -/

/-- The duplicate-edge scan (lines 19–36): a seen-set keyed by the strings
`u ++ "-" ++ v` and `v ++ "-" ++ u`; a colliding edge is reported and its
keys are *not* added. -/
def dupScan : List String → List Edge → List ValidationError
  | _, [] => []
  | seen, e :: rest =>
    let k1 := e.u ++ "-" ++ e.v
    let k2 := e.v ++ "-" ++ e.u
    if k1 ∈ seen ∨ k2 ∈ seen then
      { type := ErrType.duplicate_edge
        message := "Duplicate edge found: " ++ e.u ++ "-" ++ e.v
        edge := some e, vertex := none } :: dupScan seen rest
    else dupScan (k1 :: k2 :: seen) rest

/-- The self-loop scan (lines 39–47). -/
def selfLoopErrors (edges : List Edge) : List ValidationError :=
  edges.flatMap (fun e =>
    if e.u = e.v then
      [{ type := ErrType.self_loop
         message := "Self-loop detected at vertex " ++ e.u
         edge := some e, vertex := none }]
    else [])

/-- The weight scan (lines 50–64): a missing/NaN weight and a negative
weight are mutually exclusive per edge. -/
def weightErrors (edges : List Edge) : List ValidationError :=
  edges.flatMap (fun e =>
    match e.w with
    | none =>
      [{ type := ErrType.missing_weight
         message := "Missing weight for edge " ++ e.u ++ "-" ++ e.v
         edge := some e, vertex := none }]
    | some n =>
      if n < 0 then
        [{ type := ErrType.negative_weight
           message := "Negative weight found for edge " ++ e.u ++ "-" ++ e.v ++ ": " ++ toString n
           edge := some e, vertex := none }]
      else [])

/-- The dangling-reference scan (lines 66–82): each endpoint missing from
`vertices` yields one error of kind `multi_edge`. -/
def danglingErrors (g : Graph) : List ValidationError :=
  g.edges.flatMap (fun e =>
    (if e.u ∈ g.vertices then []
     else [{ type := ErrType.multi_edge
             message := "Edge references non-existent vertex: " ++ e.u
             edge := some e, vertex := none }]) ++
    (if e.v ∈ g.vertices then []
     else [{ type := ErrType.multi_edge
             message := "Edge references non-existent vertex: " ++ e.v
             edge := some e, vertex := none }]))

/-- The four structural scans, in source order. -/
def scanErrors (g : Graph) : List ValidationError :=
  dupScan [] g.edges ++ selfLoopErrors g.edges ++ weightErrors g.edges ++ danglingErrors g

/-- `validateGraph` from `validation.ts`: empty-vertex check, the four
scans, then the connectivity check only when no other error exists. -/
def validateGraph (g : Graph) : List ValidationError :=
  if g.vertices = [] then
    [{ type := ErrType.disconnected
       message := "Graph must have at least one vertex"
       edge := none, vertex := none }]
  else
    let errs := scanErrors g
    if errs.isEmpty && !isConnected g then
      errs ++ [{ type := ErrType.disconnected
                 message := "Graph is not connected. All vertices must be reachable from each other."
                 edge := none, vertex := none }]
    else errs

/-- `isValidGraph` from `validation.ts`. -/
def isValidGraph (g : Graph) : Bool :=
  (validateGraph g).length == 0

/-! ## Session store (`src/lib/store.ts`)

The store state keeps the fields the history/trace discipline depends on;
purely presentational fields (`isPlaying`, `playSpeed`, `edgeCreationMode`,
`selectedVertices`/`selectedEdge` are kept because mutations reset them)
are modelled where the claims need them.  Node positions are an
association list with JavaScript object insertion-order semantics. -/

/-- A node-position record (`Record<string, NodePosition>`). -/
abbrev Positions := List (String × NodePosition)

/-- JavaScript `{...ps, [k]: v}`: overriding an existing key keeps its
slot, a new key is appended. -/
def setPos (ps : Positions) (k : String) (v : NodePosition) : Positions :=
  if ps.any (fun p => p.1 == k) then
    ps.map (fun p => if p.1 == k then (k, v) else p)
  else ps ++ [(k, v)]

/-- JavaScript `delete ps[k]`. -/
def delPos (ps : Positions) (k : String) : Positions :=
  ps.filter (fun p => p.1 != k)

/-- `GraphHistoryEntry` from `types.ts`. -/
structure HistoryEntry where
  graph : Graph
  nodePositions : Positions
deriving DecidableEq, Repr

/-- The store state (`store.ts`). -/
structure StoreState where
  graph : Graph
  nodePositions : Positions
  steps : List Step
  currentStep : Nat
  validationErrors : List ValidationError
  selectedVertices : List String
  selectedEdge : Option (String × String)
  history : List HistoryEntry
  future : List HistoryEntry
deriving DecidableEq, Repr

namespace Store

/-- The `validate` action: re-run validation and store the errors. -/
def validate (s : StoreState) : StoreState :=
  { s with validationErrors := validateGraph s.graph }

/-- `pushToHistory`: no-op while a trace is active; otherwise push a deep
copy of graph and positions and clear the redo stack. -/
def pushToHistory (s : StoreState) : StoreState :=
  if s.steps.length > 0 then s
  else
    { s with
      history := s.history ++ [{ graph := cloneGraph s.graph, nodePositions := s.nodePositions }]
      future := [] }

/-- `canUndo`. -/
def canUndo (s : StoreState) : Bool :=
  decide (s.history.length > 0) && decide (s.steps.length = 0)

/-- `canRedo`. -/
def canRedo (s : StoreState) : Bool :=
  decide (s.future.length > 0) && decide (s.steps.length = 0)

/-- `undo`: no-op when history is empty or a trace is active; otherwise
push the current state on the redo stack, restore the most recent history
entry, clear the trace and re-validate. -/
def undo (s : StoreState) : StoreState :=
  if s.history.length = 0 ∨ s.steps.length > 0 then s
  else
    match s.history.getLast? with
    | none => s
    | some previousState =>
      validate
        { s with
          graph := previousState.graph
          nodePositions := previousState.nodePositions
          history := s.history.dropLast
          future := { graph := cloneGraph s.graph, nodePositions := s.nodePositions } :: s.future
          steps := []
          currentStep := 0
          selectedVertices := []
          selectedEdge := none }

/-- `redo`: symmetric to `undo`, using the redo stack. -/
def redo (s : StoreState) : StoreState :=
  if s.future.length = 0 ∨ s.steps.length > 0 then s
  else
    match s.future with
    | [] => s
    | nextState :: rest =>
      validate
        { s with
          graph := nextState.graph
          nodePositions := nextState.nodePositions
          history := s.history ++ [{ graph := cloneGraph s.graph, nodePositions := s.nodePositions }]
          future := rest
          steps := []
          currentStep := 0
          selectedVertices := []
          selectedEdge := none }

/-- Default position of the `i`-th vertex. -/
def defaultPos (i : Nat) : NodePosition :=
  { x := 300 + (Int.ofNat (i % 4)) * 200, y := 200 + (Int.ofNat (i / 4)) * 200 }

/-- `addVertex`: auto-generates a label when none (or an empty string —
falsy in JavaScript) is supplied; silently rejects an existing label.  It
never calls `pushToHistory`.  The in-place sort performed by
`getNextVertexLabel` on the store's graph is reflected in both branches. -/
def addVertex (s : StoreState) (label : Option String) : StoreState :=
  let (newLabel, g) :=
    match label with
    | some l => if l = "" then getNextVertexLabel s.graph else (l, s.graph)
    | none => getNextVertexLabel s.graph
  if newLabel ∈ g.vertices then { s with graph := g }
  else
    let newIndex := g.vertices.length
    validate
      { s with
        graph := { vertices := g.vertices ++ [newLabel], edges := g.edges }
        nodePositions := setPos s.nodePositions newLabel (defaultPos newIndex)
        steps := []
        currentStep := 0 }

/-- `removeVertex`: pushes to history, then removes the vertex, its
incident edges and its position. -/
def removeVertex (s : StoreState) (label : String) : StoreState :=
  let s1 := pushToHistory s
  validate
    { s1 with
      graph :=
        { vertices := s.graph.vertices.filter (fun v => v != label)
          edges := s.graph.edges.filter (fun e => e.u != label && e.v != label) }
      nodePositions := delPos s.nodePositions label
      steps := []
      currentStep := 0
      selectedVertices := []
      selectedEdge := none }

/-- `addEdge`: silently rejected when an edge between the pair exists in
either orientation or when `u = v`; otherwise push to history and append. -/
def addEdge (s : StoreState) (u v : String) (w : Int) : StoreState :=
  let ex := s.graph.edges.any (fun e => (e.u == u && e.v == v) || (e.u == v && e.v == u))
  if !ex && u != v then
    let s1 := pushToHistory s
    validate
      { s1 with
        graph := { s.graph with edges := s.graph.edges ++ [{ u := u, v := v, w := some w }] }
        steps := []
        currentStep := 0 }
  else s

/-- `updateEdgeWeight`: push to history, then rewrite the weight of every
edge matching the pair in either orientation. -/
def updateEdgeWeight (s : StoreState) (u v : String) (newWeight : Int) : StoreState :=
  let s1 := pushToHistory s
  validate
    { s1 with
      graph :=
        { s.graph with
          edges := s.graph.edges.map (fun e =>
            if (e.u == u && e.v == v) || (e.u == v && e.v == u) then
              { e with w := some newWeight }
            else e) }
      steps := []
      currentStep := 0 }

/-- The store's `removeEdge` action: push to history, then drop every edge
matching the pair in either orientation. -/
def removeEdge (s : StoreState) (u v : String) : StoreState :=
  let s1 := pushToHistory s
  validate
    { s1 with
      graph :=
        { s.graph with
          edges := s.graph.edges.filter (fun e =>
            !((e.u == u && e.v == v) || (e.u == v && e.v == u))) }
      steps := []
      currentStep := 0 }

/-- `runAlgorithm`: rejected while validation errors exist; otherwise
store the full trace with the cursor reset. -/
def runAlgorithm (s : StoreState) : StoreState :=
  if s.validationErrors.length > 0 then s
  else { s with steps := reverseDelete s.graph, currentStep := 0 }

end Store

/-! ## Basic lemmas about the primitives -/

/-- `cloneGraph` is the identity on the value level (it only breaks
reference sharing, which a pure model does not have). -/
theorem cloneGraph_eq (g : Graph) : cloneGraph g = g := by
  cases g with
  | mk vs es =>
    have h : (fun e : Edge => ({ u := e.u, v := e.v, w := e.w } : Edge)) = id :=
      funext fun e => by cases e; rfl
    simp [cloneGraph, h]

/-- `edgesEqual` decides `samePair`. -/
theorem edgesEqual_iff {e1 e2 : Edge} : edgesEqual e1 e2 = true ↔ samePair e1 e2 := by
  simp [edgesEqual, samePair]

theorem samePair_refl (e : Edge) : samePair e e := Or.inl ⟨rfl, rfl⟩

theorem samePair_symm {e1 e2 : Edge} (h : samePair e1 e2) : samePair e2 e1 := by
  rcases h with ⟨h1, h2⟩ | ⟨h1, h2⟩
  · exact Or.inl ⟨h1.symm, h2.symm⟩
  · exact Or.inr ⟨h2.symm, h1.symm⟩

/-- Two edges forming the same pair agree with every third edge. -/
theorem samePair_congr {e f x : Edge} (h : samePair e f) : samePair x e ↔ samePair x f := by
  rcases h with ⟨h1, h2⟩ | ⟨h1, h2⟩ <;>
    constructor <;> rintro (⟨g1, g2⟩ | ⟨g1, g2⟩) <;>
      simp [samePair, g1, g2, h1, h2, Or.comm] at *

theorem removeEdge_vertices (g : Graph) (e : Edge) : (removeEdge g e).vertices = g.vertices := rfl

theorem mem_removeEdge {g : Graph} {e x : Edge} :
    x ∈ (removeEdge g e).edges ↔ x ∈ g.edges ∧ ¬ samePair x e := by
  simp only [removeEdge, List.mem_filter, Bool.not_eq_true', ← edgesEqual_iff,
    Bool.not_eq_true]

/-- If `e` and `f` are the same pair, removing either gives the same graph. -/
theorem removeEdge_congr {g : Graph} {e f : Edge} (h : samePair e f) :
    removeEdge g e = removeEdge g f := by
  unfold removeEdge
  congr 1
  apply List.filter_congr
  intro x _
  have hb : edgesEqual x e = edgesEqual x f := by
    rw [Bool.eq_iff_iff, edgesEqual_iff, edgesEqual_iff]
    exact samePair_congr h
  rw [hb]

/-! ## Concrete fixtures -/

/-- The triangle example graph (`examples.ts` and the spec scenario). -/
def triangleGraph : Graph :=
  { vertices := ["A", "B", "C"]
    edges := [⟨"A", "B", some 3⟩, ⟨"B", "C", some 4⟩, ⟨"A", "C", some 5⟩] }

/-- A graph whose vertex labels contain the `-` character, so that two
distinct edges produce the same duplicate-scan key `u ++ "-" ++ v`. -/
def hyphenGraph : Graph :=
  { vertices := ["A-B", "C", "A", "B-C"]
    edges := [⟨"A-B", "C", some 1⟩, ⟨"A", "B-C", some 2⟩] }

/-- A graph with a dangling edge endpoint (`B` is not a vertex). -/
def danglingGraph : Graph := { vertices := ["A"], edges := [⟨"A", "B", some 1⟩] }

/-- Two vertices, one edge referencing the non-vertex label `X`. -/
def phantomGraph : Graph := { vertices := ["A", "B"], edges := [⟨"X", "A", some 1⟩] }

/-- `phantomGraph` with its vertex sequence permuted. -/
def phantomGraphPerm : Graph := { vertices := ["B", "A"], edges := [⟨"X", "A", some 1⟩] }

/-- A quiescent store state: one vertex `A`, no trace, empty history. -/
def baseState : StoreState :=
  { graph := { vertices := ["A"], edges := [] }
    nodePositions := [("A", ⟨300, 200⟩)]
    steps := []
    currentStep := 0
    validationErrors := []
    selectedVertices := []
    selectedEdge := none
    history := []
    future := [] }

/-! ## Claim theorems: concrete scenarios -/

/-- C3: on the triangle graph `{A,B,C}` with edges `A-B:3, B-C:4, A-C:5`,
the trace first considers `A-C` and deletes it, then considers `B-C` and
keeps it, then considers `A-B` and keeps it, and the final snapshot has
exactly the edges `A-B:3` and `B-C:4`, of total weight 7. -/
theorem c3_triangle_trace :
    (reverseDelete triangleGraph).map (fun s => (s.type, s.edge)) =
      [(StepType.consider, ⟨"A", "C", some 5⟩), (StepType.consider, ⟨"A", "C", some 5⟩),
       (StepType.delete, ⟨"A", "C", some 5⟩), (StepType.consider, ⟨"B", "C", some 4⟩),
       (StepType.keep, ⟨"B", "C", some 4⟩), (StepType.consider, ⟨"A", "B", some 3⟩),
       (StepType.keep, ⟨"A", "B", some 3⟩), (StepType.complete, ⟨"A", "B", some 3⟩)] ∧
    ((reverseDelete triangleGraph).map Step.snapshot).getLast? =
      some { vertices := ["A", "B", "C"], edges := [⟨"A", "B", some 3⟩, ⟨"B", "C", some 4⟩] } ∧
    getTotalWeight { vertices := ["A", "B", "C"]
                     edges := [⟨"A", "B", some 3⟩, ⟨"B", "C", some 4⟩] } = some 7 := by
  decide

/-- C10: the duplicate scan keys edges by `u ++ "-" ++ v`, so on
`hyphenGraph` the two edges are pairwise distinct under `edgesEqual` yet
the second is reported as a `duplicate_edge`. -/
theorem c10_hyphen_key_collision :
    edgesEqual ⟨"A-B", "C", some 1⟩ ⟨"A", "B-C", some 2⟩ = false ∧
    edgesEqual ⟨"A", "B-C", some 2⟩ ⟨"A-B", "C", some 1⟩ = false ∧
    validateGraph hyphenGraph =
      [{ type := ErrType.duplicate_edge
         message := "Duplicate edge found: A-B-C"
         edge := some ⟨"A", "B-C", some 2⟩
         vertex := none }] := by
  decide

/-- C8 (failing input): `getNextVertexLabel` sorts `graph.vertices` in
place — on a graph whose insertion order is `["B", "A"]` the vertices
sequence is reordered to `["A", "B"]` by merely generating a label. -/
theorem c8_label_generation_mutates :
    (getNextVertexLabel { vertices := ["B", "A"], edges := [] }).2.vertices = ["A", "B"] ∧
    (["A", "B"] : List String) ≠ ["B", "A"] := by
  decide

/-- C7 (counterexample): with labels `["A", "A1"]` the code sorts *all*
labels, finds the greatest (`"A1"`, multi-character) and falls back to the
`A<count>` form, returning `"A2"` — not `"B"`, the successor of the
greatest single-character label prescribed by the claim. -/
theorem c7_counterexample :
    (getNextVertexLabel { vertices := ["A", "A1"], edges := [] }).1 = "A2" ∧
    ("A2" : String) ≠ "B" := by
  decide

/-- C2 (counterexample): adding the fresh vertex `"B"` to `baseState` —
no trace active, label not already present — applies the change but
pushes no `HistoryEntry`: `addVertex` never calls `pushToHistory`. -/
theorem c2_counterexample :
    baseState.steps = [] ∧ baseState.history = [] ∧
    (Store.addVertex baseState (some "B")).graph.vertices = ["A", "B"] ∧
    (Store.addVertex baseState (some "B")).history = [] := by
  decide

/-- C9 (counterexample): the error reported for a missing edge endpoint
has kind `multi_edge` (the only kinds are those of the `types.ts` union,
which has no `dangling_reference` member). -/
theorem c9_counterexample :
    validateGraph danglingGraph =
      [{ type := ErrType.multi_edge
         message := "Edge references non-existent vertex: B"
         edge := some ⟨"A", "B", some 1⟩
         vertex := none }] := by
  decide

/-- C6 (counterexample): `isConnected` is not invariant under permuting
`vertices` when an edge references a non-existent vertex: the DFS visits
the phantom label `X`, inflating the visited count when started at `A`. -/
theorem c6_counterexample :
    phantomGraph.vertices.Perm phantomGraphPerm.vertices ∧
    phantomGraph.edges = phantomGraphPerm.edges ∧
    isConnected phantomGraph = true ∧
    isConnected phantomGraphPerm = false := by
  decide

/-! ## Store lemmas -/

/-- `addVertex` never touches the undo or redo stack, in any branch. -/
theorem addVertex_history (s : StoreState) (label : Option String) :
    (Store.addVertex s label).history = s.history ∧
    (Store.addVertex s label).future = s.future := by
  unfold Store.addVertex Store.validate
  rcases label with _ | l
  all_goals dsimp only
  all_goals repeat' split
  all_goals simp

/-- `pushToHistory` with no active trace appends the deep-copied entry and
clears the redo stack. -/
theorem pushToHistory_no_trace {s : StoreState} (hs : s.steps = []) :
    Store.pushToHistory s =
      { s with
        history := s.history ++ [{ graph := cloneGraph s.graph, nodePositions := s.nodePositions }]
        future := [] } := by
  unfold Store.pushToHistory
  rw [if_neg]
  simp [hs]

/-- `pushToHistory` is a no-op while a trace is active. -/
theorem pushToHistory_trace {s : StoreState} (hs : s.steps ≠ []) :
    Store.pushToHistory s = s := by
  unfold Store.pushToHistory
  rw [if_pos]
  exact List.length_pos.2 hs

/-- C2 (amended): with no active trace, `removeVertex`, `updateEdgeWeight`,
the store's `removeEdge`, and `addEdge` (when not silently rejected) push a
deep copy of the current graph and positions onto the undo stack before the
change and clear the redo stack; while a trace is active none of the five
mutations pushes history; `addVertex` never pushes a history entry. -/
theorem c2_mutation_history_contract (s : StoreState) (lbl : String)
    (olbl : Option String) (u v : String) (w nw : Int) :
    (s.steps = [] →
      (Store.removeVertex s lbl).history =
          s.history ++ [{ graph := cloneGraph s.graph, nodePositions := s.nodePositions }] ∧
      (Store.removeVertex s lbl).future = [] ∧
      (Store.updateEdgeWeight s u v nw).history =
          s.history ++ [{ graph := cloneGraph s.graph, nodePositions := s.nodePositions }] ∧
      (Store.updateEdgeWeight s u v nw).future = [] ∧
      (Store.removeEdge s u v).history =
          s.history ++ [{ graph := cloneGraph s.graph, nodePositions := s.nodePositions }] ∧
      (Store.removeEdge s u v).future = [] ∧
      (s.graph.edges.any
          (fun e => (e.u == u && e.v == v) || (e.u == v && e.v == u)) = false → u ≠ v →
        (Store.addEdge s u v w).history =
            s.history ++ [{ graph := cloneGraph s.graph, nodePositions := s.nodePositions }] ∧
        (Store.addEdge s u v w).future = [])) ∧
    (s.steps ≠ [] →
      (Store.removeVertex s lbl).history = s.history ∧
      (Store.updateEdgeWeight s u v nw).history = s.history ∧
      (Store.removeEdge s u v).history = s.history ∧
      (Store.addEdge s u v w).history = s.history) ∧
    (Store.addVertex s olbl).history = s.history := by
  refine ⟨fun hs => ?_, fun hs => ?_, (addVertex_history s olbl).1⟩
  · have hp := pushToHistory_no_trace hs
    refine ⟨?_, ?_, ?_, ?_, ?_, ?_, fun hex huv => ?_⟩
    · simp [Store.removeVertex, Store.validate, hp]
    · simp [Store.removeVertex, Store.validate, hp]
    · simp [Store.updateEdgeWeight, Store.validate, hp]
    · simp [Store.updateEdgeWeight, Store.validate, hp]
    · simp [Store.removeEdge, Store.validate, hp]
    · simp [Store.removeEdge, Store.validate, hp]
    · constructor <;>
        simp [Store.addEdge, Store.validate, hp, hex, huv]
  · have hp := pushToHistory_trace hs
    refine ⟨?_, ?_, ?_, ?_⟩
    · simp [Store.removeVertex, Store.validate, hp]
    · simp [Store.updateEdgeWeight, Store.validate, hp]
    · simp [Store.removeEdge, Store.validate, hp]
    · unfold Store.addEdge Store.validate
      dsimp only
      split
      · simp [hp]
      · rfl

/-- Witness for C2 (amended) at `baseState`: removing vertex `A` pushes
the deep-copied entry and clears the redo stack, and `addVertex` pushes
nothing. -/
theorem c2_mutation_history_contract_witness :
    baseState.steps = [] ∧
    (Store.removeVertex baseState "A").history =
        baseState.history ++
          [{ graph := cloneGraph baseState.graph, nodePositions := baseState.nodePositions }] ∧
    (Store.addVertex baseState (some "B")).history = baseState.history := by
  refine ⟨rfl, ?_, ?_⟩
  · exact (((c2_mutation_history_contract baseState "A" (some "B") "A" "B" 1 1).1 rfl)).1
  · exact (c2_mutation_history_contract baseState "A" (some "B") "A" "B" 1 1).2.2

/-- A store state with one history entry, used to witness the undo/redo
round trip. -/
def historyState : StoreState :=
  { baseState with
    history := [{ graph := { vertices := [], edges := [] }, nodePositions := [] }] }

/-- C5: with a non-empty undo stack and no active trace, `undo` followed
immediately by `redo` restores the graph and node positions to exactly
their values before the undo. -/
theorem c5_undo_redo_roundtrip (s : StoreState) (hh : s.history ≠ []) (hs : s.steps = []) :
    (Store.redo (Store.undo s)).graph = s.graph ∧
    (Store.redo (Store.undo s)).nodePositions = s.nodePositions := by
  obtain ⟨prev, hprev⟩ : ∃ p, s.history.getLast? = some p := by
    cases h : s.history.getLast? with
    | none => exact absurd (List.getLast?_eq_none_iff.1 h) hh
    | some p => exact ⟨p, rfl⟩
  have hguard : ¬(s.history.length = 0 ∨ s.steps.length > 0) := by
    rintro (h0 | hpos)
    · exact hh (List.length_eq_zero.1 h0)
    · rw [hs] at hpos; exact Nat.lt_irrefl 0 hpos
  have hu : Store.undo s =
      Store.validate
        { s with
          graph := prev.graph
          nodePositions := prev.nodePositions
          history := s.history.dropLast
          future := { graph := cloneGraph s.graph, nodePositions := s.nodePositions } :: s.future
          steps := []
          currentStep := 0
          selectedVertices := []
          selectedEdge := none } := by
    unfold Store.undo
    rw [if_neg hguard, hprev]
  rw [hu]
  unfold Store.redo Store.validate
  rw [if_neg]
  · simp [cloneGraph_eq]
  · rintro (h0 | hpos)
    · simp at h0
    · simp at hpos

/-- Witness for C5 at `historyState`. -/
theorem c5_undo_redo_roundtrip_witness :
    (historyState.history ≠ [] ∧ historyState.steps = []) ∧
    (Store.redo (Store.undo historyState)).graph = historyState.graph ∧
    (Store.redo (Store.undo historyState)).nodePositions = historyState.nodePositions :=
  ⟨⟨by decide, rfl⟩, c5_undo_redo_roundtrip historyState (by decide) rfl⟩

/-- The `disconnected` validation error value. -/
def disconnectedError : ValidationError :=
  { type := ErrType.disconnected
    message := "Graph is not connected. All vertices must be reachable from each other."
    edge := none
    vertex := none }

/-- The connectivity-check gate of `validateGraph`, as a reusable fact. -/
theorem validateGraph_gate (g : Graph) (hv : g.vertices ≠ []) :
    (scanErrors g ≠ [] → validateGraph g = scanErrors g) ∧
    (scanErrors g = [] → isConnected g = false → validateGraph g = [disconnectedError]) := by
  unfold validateGraph
  rw [if_neg hv]
  constructor
  · intro hne
    rw [if_neg]
    simp [List.isEmpty_iff, hne]
  · intro hni hcon
    rw [if_pos]
    · simp [hni, disconnectedError]
    · simp [List.isEmpty_iff, hni, hcon]

/-- C4: the connectivity check runs only when the duplicate-edge,
self-loop, weight and dangling-reference scans produced zero errors; in
that case a non-empty disconnected graph yields exactly one error, of
kind `disconnected`. -/
theorem c4_connectivity_gate (g : Graph) (hv : g.vertices ≠ []) :
    (scanErrors g ≠ [] → validateGraph g = scanErrors g) ∧
    (scanErrors g = [] → isConnected g = false → validateGraph g = [disconnectedError]) :=
  validateGraph_gate g hv

/-- Witness for C4: two isolated vertices pass all four scans, fail the
connectivity check, and produce exactly the one `disconnected` error. -/
theorem c4_connectivity_gate_witness :
    (["A", "B"] ≠ ([] : List String) ∧
     scanErrors { vertices := ["A", "B"], edges := [] } = [] ∧
     isConnected { vertices := ["A", "B"], edges := [] } = false) ∧
    validateGraph { vertices := ["A", "B"], edges := [] } = [disconnectedError] :=
  ⟨⟨by decide, by decide, by decide⟩,
    (c4_connectivity_gate { vertices := ["A", "B"], edges := [] } (by decide)).2
      (by decide) (by decide)⟩

/-! ## Validation scan classification lemmas -/

theorem dupScan_type {seen : List String} {l : List Edge} {err : ValidationError}
    (h : err ∈ dupScan seen l) : err.type = ErrType.duplicate_edge := by
  induction l generalizing seen with
  | nil => simp [dupScan] at h
  | cons e rest ih =>
    unfold dupScan at h
    dsimp only at h
    split at h
    · rcases List.mem_cons.1 h with h1 | h1
      · rw [h1]
      · exact ih h1
    · exact ih h

theorem selfLoopErrors_type {l : List Edge} {err : ValidationError}
    (h : err ∈ selfLoopErrors l) : err.type = ErrType.self_loop := by
  unfold selfLoopErrors at h
  rcases List.mem_flatMap.1 h with ⟨e, _, hm⟩
  split at hm <;> simp at hm
  rw [hm]

theorem weightErrors_type {l : List Edge} {err : ValidationError}
    (h : err ∈ weightErrors l) :
    err.type = ErrType.missing_weight ∨ err.type = ErrType.negative_weight := by
  unfold weightErrors at h
  rcases List.mem_flatMap.1 h with ⟨e, _, hm⟩
  rcases hw : e.w with _ | n <;> rw [hw] at hm <;> dsimp only at hm
  · simp at hm; left; rw [hm]
  · split at hm <;> simp at hm
    right; rw [hm]

/-- Membership in the dangling scan, characterized. -/
theorem mem_danglingErrors {g : Graph} {err : ValidationError} :
    err ∈ danglingErrors g ↔
      ∃ e ∈ g.edges,
        (e.u ∉ g.vertices ∧
          err = { type := ErrType.multi_edge
                  message := "Edge references non-existent vertex: " ++ e.u
                  edge := some e, vertex := none }) ∨
        (e.v ∉ g.vertices ∧
          err = { type := ErrType.multi_edge
                  message := "Edge references non-existent vertex: " ++ e.v
                  edge := some e, vertex := none }) := by
  unfold danglingErrors
  rw [List.mem_flatMap]
  constructor
  · rintro ⟨e, he, hm⟩
    refine ⟨e, he, ?_⟩
    rcases List.mem_append.1 hm with h1 | h1 <;> split at h1 <;> simp at h1
    · left; exact ⟨by assumption, h1⟩
    · right; exact ⟨by assumption, h1⟩
  · rintro ⟨e, he, ⟨hu, herr⟩ | ⟨hv, herr⟩⟩
    · exact ⟨e, he, List.mem_append.2 (Or.inl (by simp [hu, herr]))⟩
    · exact ⟨e, he, List.mem_append.2 (Or.inr (by simp [hv, herr]))⟩

/-- Every error of `validateGraph` on a non-empty-vertex graph is either a
scan error or the disconnected error. -/
theorem validateGraph_cases {g : Graph} (hv : g.vertices ≠ []) {err : ValidationError}
    (h : err ∈ validateGraph g) : err ∈ scanErrors g ∨ err = disconnectedError := by
  unfold validateGraph at h
  rw [if_neg hv] at h
  dsimp only at h
  split at h
  · rcases List.mem_append.1 h with h1 | h1
    · exact Or.inl h1
    · simp at h1; exact Or.inr (by rw [h1]; rfl)
  · exact Or.inl h

/-- Conversely every scan error is reported by `validateGraph`. -/
theorem scanErrors_sub_validateGraph {g : Graph} (hv : g.vertices ≠ [])
    {err : ValidationError} (h : err ∈ scanErrors g) : err ∈ validateGraph g := by
  unfold validateGraph
  rw [if_neg hv]
  dsimp only
  split
  · exact List.mem_append.2 (Or.inl h)
  · exact h

/-- C9 (amended): each edge endpoint missing from `vertices` is reported
by `validate` with one error per missing endpoint, carrying the offending
edge — but of kind `multi_edge`, the code's name for dangling references
(the `types.ts` union has no `dangling_reference` kind); conversely every
`multi_edge` error comes from an edge with a missing endpoint. -/
theorem c9_dangling_reported (g : Graph) (hv : g.vertices ≠ []) (e : Edge)
    (he : e ∈ g.edges) :
    (e.u ∉ g.vertices →
      { type := ErrType.multi_edge
        message := "Edge references non-existent vertex: " ++ e.u
        edge := some e, vertex := none } ∈ validateGraph g) ∧
    (e.v ∉ g.vertices →
      { type := ErrType.multi_edge
        message := "Edge references non-existent vertex: " ++ e.v
        edge := some e, vertex := none } ∈ validateGraph g) ∧
    (∀ err ∈ validateGraph g, err.type = ErrType.multi_edge →
      ∃ f ∈ g.edges, err.edge = some f ∧ (f.u ∉ g.vertices ∨ f.v ∉ g.vertices)) := by
  refine ⟨fun hu => ?_, fun hvv => ?_, fun err herr htype => ?_⟩
  · exact scanErrors_sub_validateGraph hv
      (by
        unfold scanErrors
        refine List.mem_append.2 (Or.inr ?_)
        exact mem_danglingErrors.2 ⟨e, he, Or.inl ⟨hu, rfl⟩⟩)
  · exact scanErrors_sub_validateGraph hv
      (by
        unfold scanErrors
        refine List.mem_append.2 (Or.inr ?_)
        exact mem_danglingErrors.2 ⟨e, he, Or.inr ⟨hvv, rfl⟩⟩)
  · rcases validateGraph_cases hv herr with hs | hd
    · unfold scanErrors at hs
      rcases List.mem_append.1 hs with hs | hdang
      · rcases List.mem_append.1 hs with hs | hw
        · rcases List.mem_append.1 hs with hdup | hsl
          · rw [dupScan_type hdup] at htype; cases htype
          · rw [selfLoopErrors_type hsl] at htype; cases htype
        · rcases weightErrors_type hw with h1 | h1 <;> rw [h1] at htype <;> cases htype
      · rcases mem_danglingErrors.1 hdang with ⟨f, hf, ⟨hfu, herr'⟩ | ⟨hfv, herr'⟩⟩
        · exact ⟨f, hf, by rw [herr'], Or.inl hfu⟩
        · exact ⟨f, hf, by rw [herr'], Or.inr hfv⟩
    · rw [hd] at htype; cases htype

/-- Witness for C9 (amended) at `danglingGraph`. -/
theorem c9_dangling_reported_witness :
    (danglingGraph.vertices ≠ [] ∧ (⟨"A", "B", some 1⟩ : Edge) ∈ danglingGraph.edges ∧
      "B" ∉ danglingGraph.vertices) ∧
    { type := ErrType.multi_edge
      message := "Edge references non-existent vertex: B"
      edge := some ⟨"A", "B", some 1⟩
      vertex := none } ∈ validateGraph danglingGraph :=
  ⟨⟨by decide, by decide, by decide⟩,
    (c9_dangling_reported danglingGraph (by decide) ⟨"A", "B", some 1⟩ (by decide)).2.1
      (by decide)⟩

/-! ## Semantics of the DFS connectivity test -/

/-- One traversal step: `b` occurs in the adjacency list of `a`. -/
def stepRel (g : Graph) (a b : String) : Prop := b ∈ adj g a

/-- Reachability along adjacency-list steps. -/
def Reaches (g : Graph) : String → String → Prop := Relation.ReflTransGen (stepRel g)

/-- No edge endpoint is missing from `vertices`. -/
def noDangling (g : Graph) : Prop := ∀ e ∈ g.edges, e.u ∈ g.vertices ∧ e.v ∈ g.vertices

instance (g : Graph) : Decidable (noDangling g) := by
  unfold noDangling; infer_instance

theorem adj_mem_iff {g : Graph} {x y : String} :
    y ∈ adj g x ↔
      x ∈ g.vertices ∧ ∃ e ∈ g.edges, (e.u = x ∧ y = e.v) ∨ (e.v = x ∧ y = e.u) := by
  unfold adj
  split
  · simp only [List.mem_flatMap, List.mem_append]
    constructor
    · rintro ⟨e, he, hm | hm⟩ <;> split at hm <;> simp at hm
      · exact ⟨by assumption, e, he, Or.inl ⟨by assumption, hm⟩⟩
      · exact ⟨by assumption, e, he, Or.inr ⟨by assumption, hm⟩⟩
    · rintro ⟨-, e, he, ⟨h1, h2⟩ | ⟨h1, h2⟩⟩
      · exact ⟨e, he, Or.inl (by simp [h1, h2])⟩
      · exact ⟨e, he, Or.inr (by simp [h1, h2])⟩
  · simp only [List.not_mem_nil, false_iff]
    rintro ⟨hx, -⟩
    exact absurd hx (by assumption)

theorem adj_eq_nil {g : Graph} {x : String} (hx : x ∉ g.vertices) : adj g x = [] := by
  unfold adj
  rw [if_neg hx]

theorem adj_length_le (g : Graph) (x : String) : (adj g x).length ≤ 2 * g.edges.length := by
  unfold adj
  split
  · rw [List.length_flatMap]
    have h := List.sum_le_card_nsmul
      (List.map (List.length ∘ fun e : Edge =>
        (if e.u = x then [e.v] else []) ++ (if e.v = x then [e.u] else [])) g.edges) 2 ?_
    · simpa [mul_comm] using h
    · intro n hn
      rcases List.mem_map.1 hn with ⟨e, -, rfl⟩
      simp only [Function.comp, List.length_append]
      split <;> split <;> simp
  · simp

/-- The DFS loop invariant: the adjacency of every visited label is
either already visited or still pending on the stack. -/
def dfsInv (g : Graph) (visited stack : List String) : Prop :=
  ∀ v ∈ visited, ∀ n ∈ adj g v, n ∈ visited ∨ n ∈ stack

theorem unvisitedCount_cons_mem {g : Graph} {visited : List String} {x : String}
    (hx : x ∈ g.vertices) (hnv : x ∉ visited) :
    unvisitedCount g (x :: visited) + 1 = unvisitedCount g visited := by
  unfold unvisitedCount
  rw [List.toFinset_cons, Finset.sdiff_insert]
  have hmem : x ∈ g.vertices.toFinset \ visited.toFinset := by
    simp [List.mem_toFinset, hx, hnv]
  rw [Finset.card_erase_of_mem hmem]
  have hpos : 0 < (g.vertices.toFinset \ visited.toFinset).card :=
    Finset.card_pos.2 ⟨x, hmem⟩
  omega

theorem unvisitedCount_cons_not_mem {g : Graph} {visited : List String} {x : String}
    (hx : x ∉ g.vertices) :
    unvisitedCount g (x :: visited) = unvisitedCount g visited := by
  unfold unvisitedCount
  rw [List.toFinset_cons]
  congr 1
  ext y
  simp only [Finset.mem_sdiff, List.mem_toFinset, Finset.mem_insert]
  constructor
  · rintro ⟨hy, hni⟩
    exact ⟨hy, fun hm => hni (Or.inr hm)⟩
  · rintro ⟨hy, hni⟩
    refine ⟨hy, ?_⟩
    rintro (rfl | hm)
    · exact hx hy
    · exact hni hm

/-- The main DFS specification: with fuel at least the measure, the result
is duplicate-free, contains the visited set and the stack, is closed
under adjacency, and contains only labels already visited or reachable
from the stack. -/
theorem dfsAux_spec (g : Graph) :
    ∀ (fuel : Nat) (visited stack : List String),
      dfsMeasure g visited stack ≤ fuel →
      visited.Nodup →
      dfsInv g visited stack →
      (dfsAux g fuel visited stack).Nodup ∧
      (∀ y ∈ visited, y ∈ dfsAux g fuel visited stack) ∧
      (∀ y ∈ stack, y ∈ dfsAux g fuel visited stack) ∧
      dfsInv g (dfsAux g fuel visited stack) [] ∧
      (∀ y ∈ dfsAux g fuel visited stack, y ∈ visited ∨ ∃ x ∈ stack, Reaches g x y) := by
  intro fuel
  induction fuel with
  | zero =>
    intro visited stack hm hnd hinv
    have hstack : stack = [] := by
      have : stack.length = 0 := by
        unfold dfsMeasure at hm; omega
      exact List.length_eq_zero.1 this
    subst hstack
    refine ⟨hnd, fun y hy => hy, by simp, ?_, fun y hy => Or.inl hy⟩
    intro v hv n hn
    exact hinv v hv n hn
  | succ fuel ih =>
    intro visited stack hm hnd hinv
    match stack with
    | [] =>
      refine ⟨hnd, fun y hy => hy, by simp, ?_, fun y hy => Or.inl hy⟩
      intro v hv n hn
      exact hinv v hv n hn
    | x :: rest =>
      by_cases hx : x ∈ visited
      · rw [show dfsAux g (fuel + 1) visited (x :: rest) = dfsAux g fuel visited rest by
          simp [dfsAux, hx]]
        have hm' : dfsMeasure g visited rest ≤ fuel := by
          unfold dfsMeasure at hm ⊢
          simp only [List.length_cons] at hm
          omega
        have hinv' : dfsInv g visited rest := by
          intro v hv n hn
          rcases hinv v hv n hn with h1 | h1
          · exact Or.inl h1
          · rcases List.mem_cons.1 h1 with rfl | h2
            · exact Or.inl hx
            · exact Or.inr h2
        obtain ⟨r1, r2, r3, r4, r5⟩ := ih visited rest hm' hnd hinv'
        refine ⟨r1, r2, ?_, r4, ?_⟩
        · intro y hy
          rcases List.mem_cons.1 hy with rfl | hy'
          · exact r2 y hx
          · exact r3 y hy'
        · intro y hy
          rcases r5 y hy with h1 | ⟨z, hz, hr⟩
          · exact Or.inl h1
          · exact Or.inr ⟨z, List.mem_cons.2 (Or.inr hz), hr⟩
      · rw [show dfsAux g (fuel + 1) visited (x :: rest) =
            dfsAux g fuel (x :: visited) (adj g x ++ rest) by simp [dfsAux, hx]]
        have hm' : dfsMeasure g (x :: visited) (adj g x ++ rest) ≤ fuel := by
          unfold dfsMeasure at hm ⊢
          simp only [List.length_cons, List.length_append] at hm ⊢
          by_cases hxv : x ∈ g.vertices
          · have hadj := adj_length_le g x
            have hU : unvisitedCount g visited = unvisitedCount g (x :: visited) + 1 :=
              (unvisitedCount_cons_mem hxv hx).symm
            rw [hU, Nat.mul_succ] at hm
            omega
          · have hcount := @unvisitedCount_cons_not_mem g visited x hxv
            rw [adj_eq_nil hxv, hcount]
            simp only [List.length_nil]
            omega
        have hnd' : (x :: visited).Nodup := List.nodup_cons.2 ⟨hx, hnd⟩
        have hinv' : dfsInv g (x :: visited) (adj g x ++ rest) := by
          intro v hv n hn
          rcases List.mem_cons.1 hv with rfl | hv'
          · exact Or.inr (List.mem_append.2 (Or.inl hn))
          · rcases hinv v hv' n hn with h1 | h1
            · exact Or.inl (List.mem_cons.2 (Or.inr h1))
            · rcases List.mem_cons.1 h1 with rfl | h2
              · exact Or.inl (List.mem_cons.2 (Or.inl rfl))
              · exact Or.inr (List.mem_append.2 (Or.inr h2))
        obtain ⟨r1, r2, r3, r4, r5⟩ := ih (x :: visited) (adj g x ++ rest) hm' hnd' hinv'
        refine ⟨r1, ?_, ?_, r4, ?_⟩
        · intro y hy
          exact r2 y (List.mem_cons.2 (Or.inr hy))
        · intro y hy
          rcases List.mem_cons.1 hy with rfl | hy'
          · exact r2 y (List.mem_cons.2 (Or.inl rfl))
          · exact r3 y (List.mem_append.2 (Or.inr hy'))
        · intro y hy
          rcases r5 y hy with h1 | ⟨z, hz, hr⟩
          · rcases List.mem_cons.1 h1 with rfl | h2
            · exact Or.inr ⟨y, List.mem_cons.2 (Or.inl rfl), Relation.ReflTransGen.refl⟩
            · exact Or.inl h2
          · rcases List.mem_append.1 hz with hz1 | hz2
            · exact Or.inr ⟨x, List.mem_cons.2 (Or.inl rfl),
                Relation.ReflTransGen.head (show stepRel g x z from hz1) hr⟩
            · exact Or.inr ⟨z, List.mem_cons.2 (Or.inr hz2), hr⟩

/-- The visited set computed by `isConnected`'s DFS from `v0`. -/
def dfsResult (g : Graph) (v0 : String) : List String := dfsAux g (dfsFuel g) [] [v0]

theorem dfsMeasure_init_le (g : Graph) (v0 : String) :
    dfsMeasure g [] [v0] ≤ dfsFuel g := by
  unfold dfsMeasure dfsFuel unvisitedCount
  have h1 : (g.vertices.toFinset \ ([] : List String).toFinset).card ≤ g.vertices.length := by
    calc (g.vertices.toFinset \ ([] : List String).toFinset).card
        ≤ g.vertices.toFinset.card := Finset.card_le_card (Finset.sdiff_subset)
      _ ≤ g.vertices.length := List.toFinset_card_le g.vertices
  have h2 : (2 * g.edges.length + 1) * (g.vertices.toFinset \ ([] : List String).toFinset).card
      ≤ (2 * g.edges.length + 1) * (g.vertices.length + 1) :=
    Nat.mul_le_mul_left _ (by omega)
  simp only [List.length_singleton]
  omega

theorem dfsResult_nodup (g : Graph) (v0 : String) : (dfsResult g v0).Nodup :=
  (dfsAux_spec g (dfsFuel g) [] [v0] (dfsMeasure_init_le g v0) List.nodup_nil
    (fun v hv => absurd hv (List.not_mem_nil v))).1

/-- The DFS visited set is exactly the set of labels reachable from the
start label. -/
theorem dfsResult_mem (g : Graph) (v0 : String) {y : String} :
    y ∈ dfsResult g v0 ↔ Reaches g v0 y := by
  obtain ⟨r1, r2, r3, r4, r5⟩ :=
    dfsAux_spec g (dfsFuel g) [] [v0] (dfsMeasure_init_le g v0) List.nodup_nil
      (fun v hv => absurd hv (List.not_mem_nil v))
  constructor
  · intro hy
    rcases r5 y hy with h1 | ⟨x, hx, hr⟩
    · exact absurd h1 (List.not_mem_nil y)
    · rcases List.mem_singleton.1 hx with rfl
      exact hr
  · intro hr
    induction hr with
    | refl => exact r3 v0 (List.mem_singleton.2 rfl)
    | tail _ hstep ih =>
      rcases r4 _ ih _ hstep with h1 | h1
      · exact h1
      · exact absurd h1 (List.not_mem_nil _)

theorem stepRel_target_mem {g : Graph} (hnd : noDangling g) {a b : String}
    (h : stepRel g a b) : b ∈ g.vertices := by
  rcases adj_mem_iff.1 h with ⟨-, e, he, ⟨h1, h2⟩ | ⟨h1, h2⟩⟩
  · rw [h2]; exact (hnd e he).2
  · rw [h2]; exact (hnd e he).1

theorem stepRel_symm {g : Graph} (hnd : noDangling g) {a b : String}
    (h : stepRel g a b) : stepRel g b a := by
  have hb : b ∈ g.vertices := stepRel_target_mem hnd h
  rcases adj_mem_iff.1 h with ⟨ha, e, he, ⟨h1, h2⟩ | ⟨h1, h2⟩⟩
  · exact adj_mem_iff.2 ⟨hb, e, he, Or.inr ⟨h2.symm, h1.symm⟩⟩
  · exact adj_mem_iff.2 ⟨hb, e, he, Or.inl ⟨h2.symm, h1.symm⟩⟩

theorem reaches_symm {g : Graph} (hnd : noDangling g) {a b : String}
    (h : Reaches g a b) : Reaches g b a :=
  Relation.ReflTransGen.symmetric (fun _ _ hs => stepRel_symm hnd hs) h

theorem reaches_mem {g : Graph} (hnd : noDangling g) {a b : String}
    (h : Reaches g a b) (ha : a ∈ g.vertices) : b ∈ g.vertices := by
  induction h with
  | refl => exact ha
  | tail _ hstep _ => exact stepRel_target_mem hnd hstep

/-- Unfolding of `isConnected` on a graph with at least two vertices. -/
theorem isConnected_cons₂ {g : Graph} {v0 v1 : String} {rest : List String}
    (hv : g.vertices = v0 :: v1 :: rest) :
    isConnected g = ((dfsResult g v0).length == g.vertices.length) := by
  unfold isConnected dfsResult
  rw [hv]

/-- Graphs with at most one vertex are trivially connected. -/
theorem isConnected_small {g : Graph} (h : g.vertices = [] ∨ ∃ a, g.vertices = [a]) :
    isConnected g = true := by
  unfold isConnected
  rcases h with h | ⟨a, h⟩ <;> rw [h]

/-- Semantic characterization of `isConnected` on a graph with no dangling
edge endpoints and at least two vertices: the vertex list must be
duplicate-free and every vertex reachable from the first one. -/
theorem isConnected_iff {g : Graph} (hnd : noDangling g) {v0 v1 : String}
    {rest : List String} (hv : g.vertices = v0 :: v1 :: rest) :
    isConnected g = true ↔ g.vertices.Nodup ∧ ∀ v ∈ g.vertices, Reaches g v0 v := by
  have hv0 : v0 ∈ g.vertices := by rw [hv]; exact List.mem_cons_self _ _
  have hsub : ∀ y ∈ dfsResult g v0, y ∈ g.vertices := fun y hy =>
    reaches_mem hnd ((dfsResult_mem g v0).1 hy) hv0
  have hsubF : (dfsResult g v0).toFinset ⊆ g.vertices.toFinset := by
    intro y hy
    exact List.mem_toFinset.2 (hsub y (List.mem_toFinset.1 hy))
  have hlen : (dfsResult g v0).length = (dfsResult g v0).toFinset.card :=
    (List.toFinset_card_of_nodup (dfsResult_nodup g v0)).symm
  rw [isConnected_cons₂ hv, beq_iff_eq]
  constructor
  · intro hEq
    have hcard : g.vertices.toFinset.card = g.vertices.length := by
      have h1 : (dfsResult g v0).toFinset.card ≤ g.vertices.toFinset.card :=
        Finset.card_le_card hsubF
      have h2 : g.vertices.toFinset.card ≤ g.vertices.length :=
        List.toFinset_card_le g.vertices
      omega
    have hnodup : g.vertices.Nodup := by
      have hded : g.vertices.dedup.length = g.vertices.length := by
        rw [List.card_toFinset] at hcard
        exact hcard
      have := List.Sublist.eq_of_length (List.dedup_sublist g.vertices) hded
      exact List.dedup_eq_self.1 this
    have hset : (dfsResult g v0).toFinset = g.vertices.toFinset :=
      Finset.eq_of_subset_of_card_le hsubF (by omega)
    refine ⟨hnodup, fun v hvm => ?_⟩
    have : v ∈ (dfsResult g v0).toFinset := hset ▸ List.mem_toFinset.2 hvm
    exact (dfsResult_mem g v0).1 (List.mem_toFinset.1 this)
  · rintro ⟨hnodup, hall⟩
    have hsupF : g.vertices.toFinset ⊆ (dfsResult g v0).toFinset := by
      intro y hy
      exact List.mem_toFinset.2 ((dfsResult_mem g v0).2 (hall y (List.mem_toFinset.1 hy)))
    have hset : (dfsResult g v0).toFinset = g.vertices.toFinset :=
      Finset.Subset.antisymm hsubF hsupF
    rw [hlen, hset, List.toFinset_card_of_nodup hnodup]

/-! ## Permutation invariance of `isConnected` (claim C6) -/

/-- The step relation only depends on `vertices` and `edges` through
membership. -/
theorem stepRel_congr {g₁ g₂ : Graph}
    (hm : ∀ x, x ∈ g₁.vertices ↔ x ∈ g₂.vertices)
    (he : ∀ e, e ∈ g₁.edges ↔ e ∈ g₂.edges) {a b : String} :
    stepRel g₁ a b ↔ stepRel g₂ a b := by
  unfold stepRel
  rw [adj_mem_iff, adj_mem_iff, hm]
  constructor <;> rintro ⟨h1, e, h2, h3⟩
  · exact ⟨h1, e, (he e).1 h2, h3⟩
  · exact ⟨h1, e, (he e).2 h2, h3⟩

theorem reaches_congr {g₁ g₂ : Graph}
    (hm : ∀ x, x ∈ g₁.vertices ↔ x ∈ g₂.vertices)
    (he : ∀ e, e ∈ g₁.edges ↔ e ∈ g₂.edges) {a b : String} :
    Reaches g₁ a b ↔ Reaches g₂ a b := by
  unfold Reaches
  constructor <;> intro h
  · exact Relation.ReflTransGen.mono (fun x y hs => (stepRel_congr hm he).1 hs) h
  · exact Relation.ReflTransGen.mono (fun x y hs => (stepRel_congr hm he).2 hs) h

/-- With the same start vertex and the same reachability relation, the
DFS visited sets are equal as finsets. -/
theorem dfsResult_toFinset_congr {g₁ g₂ : Graph}
    (hm : ∀ x, x ∈ g₁.vertices ↔ x ∈ g₂.vertices)
    (he : ∀ e, e ∈ g₁.edges ↔ e ∈ g₂.edges) (v0 : String) :
    (dfsResult g₁ v0).toFinset = (dfsResult g₂ v0).toFinset := by
  ext y
  rw [List.mem_toFinset, List.mem_toFinset, dfsResult_mem, dfsResult_mem,
    reaches_congr hm he]

/-- C6 (amended): `isConnected` is invariant under permuting `edges` for
every graph (`vertices` unchanged); it is additionally invariant under
permuting `vertices` whenever every edge endpoint is an existing vertex.
(The unrestricted claim fails: see the phantom-vertex counterexample.) -/
theorem c6_isConnected_perm_invariant :
    (∀ g₁ g₂ : Graph, g₁.vertices = g₂.vertices → g₁.edges.Perm g₂.edges →
      isConnected g₁ = isConnected g₂) ∧
    (∀ g₁ g₂ : Graph, g₁.vertices.Perm g₂.vertices → g₁.edges.Perm g₂.edges →
      noDangling g₁ → isConnected g₁ = isConnected g₂) := by
  constructor
  · intro g₁ g₂ hv he
    have hm : ∀ x, x ∈ g₁.vertices ↔ x ∈ g₂.vertices := fun x => by rw [hv]
    have he' : ∀ e, e ∈ g₁.edges ↔ e ∈ g₂.edges := fun e => he.mem_iff
    rcases hvs : g₁.vertices with _ | ⟨v0, _ | ⟨v1, rest⟩⟩
    · have hvs2 : g₂.vertices = [] := by rw [← hv, hvs]
      rw [isConnected_small (Or.inl hvs), isConnected_small (Or.inl hvs2)]
    · have hvs2 : g₂.vertices = [v0] := by rw [← hv, hvs]
      rw [isConnected_small (Or.inr ⟨v0, hvs⟩), isConnected_small (Or.inr ⟨v0, hvs2⟩)]
    · have hvs2 : g₂.vertices = v0 :: v1 :: rest := by rw [← hv, hvs]
      rw [isConnected_cons₂ hvs, isConnected_cons₂ hvs2]
      have hset := dfsResult_toFinset_congr hm he' v0
      have hl1 : (dfsResult g₁ v0).length = (dfsResult g₁ v0).toFinset.card :=
        (List.toFinset_card_of_nodup (dfsResult_nodup g₁ v0)).symm
      have hl2 : (dfsResult g₂ v0).length = (dfsResult g₂ v0).toFinset.card :=
        (List.toFinset_card_of_nodup (dfsResult_nodup g₂ v0)).symm
      rw [hl1, hl2, hset, hv]
  · intro g₁ g₂ hv he hnd
    have hm : ∀ x, x ∈ g₁.vertices ↔ x ∈ g₂.vertices := fun x => hv.mem_iff
    have he' : ∀ e, e ∈ g₁.edges ↔ e ∈ g₂.edges := fun e => he.mem_iff
    have hnd₂ : noDangling g₂ := by
      intro e hee
      obtain ⟨hu, hvv⟩ := hnd e ((he' e).2 hee)
      exact ⟨(hm _).1 hu, (hm _).1 hvv⟩
    have hlen : g₁.vertices.length = g₂.vertices.length := hv.length_eq
    rcases hvs : g₁.vertices with _ | ⟨v0, _ | ⟨v1, rest⟩⟩ <;>
      rcases hvs2 : g₂.vertices with _ | ⟨w0, _ | ⟨w1, rest2⟩⟩ <;>
        rw [hvs, hvs2] at hlen <;> simp only [List.length_cons, List.length_nil] at hlen <;>
          try omega
    · rw [isConnected_small (Or.inl hvs), isConnected_small (Or.inl hvs2)]
    · rw [isConnected_small (Or.inr ⟨v0, hvs⟩), isConnected_small (Or.inr ⟨w0, hvs2⟩)]
    · have hv0 : v0 ∈ g₁.vertices := by rw [hvs]; exact List.mem_cons_self _ _
      have hw0 : w0 ∈ g₁.vertices := by
        rw [hv.mem_iff, hvs2]; exact List.mem_cons_self _ _
      rw [Bool.eq_iff_iff, isConnected_iff hnd hvs, isConnected_iff hnd₂ hvs2]
      have hreach : ∀ a b, Reaches g₁ a b ↔ Reaches g₂ a b := fun a b =>
        reaches_congr hm he'
      constructor
      · rintro ⟨hnodup, hall⟩
        refine ⟨(hv.nodup_iff).1 hnodup, fun v hvm => ?_⟩
        have hv1 : v ∈ g₁.vertices := (hv.mem_iff).2 hvm
        have hr1 : Reaches g₁ w0 v :=
          (reaches_symm hnd (hall w0 hw0)).trans (hall v hv1)
        exact (hreach _ _).1 hr1
      · rintro ⟨hnodup, hall⟩
        refine ⟨(hv.nodup_iff).2 hnodup, fun v hvm => ?_⟩
        have hv2 : v ∈ g₂.vertices := (hv.mem_iff).1 hvm
        have hw2 : v0 ∈ g₂.vertices := (hv.mem_iff).1 hv0
        have hr2 : Reaches g₂ v0 v :=
          (reaches_symm hnd₂ (hall v0 hw2)).trans (hall v hv2)
        exact (hreach _ _).2 hr2

/-- Witness for C6 (amended): the triangle graph with both sequences
permuted. -/
theorem c6_isConnected_perm_invariant_witness :
    (triangleGraph.vertices.Perm ["B", "A", "C"] ∧
      triangleGraph.edges.Perm [⟨"B", "C", some 4⟩, ⟨"A", "B", some 3⟩, ⟨"A", "C", some 5⟩] ∧
      noDangling triangleGraph) ∧
    isConnected triangleGraph =
      isConnected { vertices := ["B", "A", "C"]
                    edges := [⟨"B", "C", some 4⟩, ⟨"A", "B", some 3⟩, ⟨"A", "C", some 5⟩] } :=
  ⟨⟨by decide, by decide, by decide⟩,
    c6_isConnected_perm_invariant.2 triangleGraph
      { vertices := ["B", "A", "C"]
        edges := [⟨"B", "C", some 4⟩, ⟨"A", "B", some 3⟩, ⟨"A", "C", some 5⟩] }
      (by decide) (by decide) (by decide)⟩

/-! ## The label generator (claims C7 and C8) -/

/-- `charListLt` decides the lexicographic order on character lists
(`List.Lex (· < ·)`, the order `String`'s order is defined from). -/
theorem charListLt_iff : ∀ {a b : List Char}, charListLt a b = true ↔ a < b
  | [], [] => by
    simp only [charListLt, Bool.false_eq_true, false_iff]
    intro h; cases h
  | [], c :: cs => by
    simp only [charListLt, true_iff]
    exact List.Lex.nil
  | c :: cs, [] => by
    simp only [charListLt, Bool.false_eq_true, false_iff]
    intro h; cases h
  | c :: cs, d :: ds => by
    unfold charListLt
    by_cases hcd : c < d
    · simp only [if_pos hcd, true_iff]
      exact List.Lex.rel hcd
    · rw [if_neg hcd]
      by_cases hdc : d < c
      · simp only [if_pos hdc, Bool.false_eq_true, false_iff]
        intro h
        cases h with
        | rel h => exact hcd h
        | cons h => exact lt_irrefl _ hdc
      · rw [if_neg hdc]
        have hcd' : c = d := le_antisymm (not_lt.1 hdc) (not_lt.1 hcd)
        subst hcd'
        rw [charListLt_iff]
        constructor
        · intro h
          exact List.Lex.cons h
        · intro h
          cases h with
          | rel h => exact absurd h (lt_irrefl c)
          | cons h => exact h

/-- `strLt` decides Mathlib's linear order on `String`. -/
theorem strLt_iff {s t : String} : strLt s t = true ↔ s < t := by
  rw [String.lt_iff_toList_lt]
  exact charListLt_iff

theorem insertStr_perm (s : String) : ∀ l : List String, (insertStr s l).Perm (s :: l)
  | [] => List.Perm.refl _
  | t :: ts => by
    unfold insertStr
    split
    · exact List.Perm.refl _
    · exact ((insertStr_perm s ts).cons t).trans (List.Perm.swap s t ts)

theorem sortStrings_perm (l : List String) : (sortStrings l).Perm l := by
  have key : ∀ (l acc : List String),
      (l.foldl (fun acc s => insertStr s acc) acc).Perm (acc ++ l) := by
    intro l
    induction l with
    | nil => intro acc; simp
    | cons x xs ih =>
      intro acc
      have h1 : ((x :: xs).foldl (fun acc s => insertStr s acc) acc).Perm
          (insertStr x acc ++ xs) := ih (insertStr x acc)
      have h2 : (insertStr x acc ++ xs).Perm ((x :: acc) ++ xs) :=
        (insertStr_perm x acc).append_right xs
      have h3 : ((x :: acc) ++ xs).Perm (acc ++ x :: xs) := List.perm_middle.symm
      exact (h1.trans h2).trans h3
  simpa using key l []

theorem insertStr_sorted {l : List String} (hl : l.Sorted (· ≤ ·)) (s : String) :
    (insertStr s l).Sorted (· ≤ ·) := by
  induction l with
  | nil => simp [insertStr]
  | cons t ts ih =>
    rcases List.sorted_cons.1 hl with ⟨ht, hts⟩
    unfold insertStr
    split
    · rename_i hlt
      have hst : s < t := strLt_iff.1 hlt
      refine List.sorted_cons.2 ⟨?_, hl⟩
      intro x hx
      rcases List.mem_cons.1 hx with rfl | hx'
      · exact le_of_lt hst
      · exact le_of_lt (lt_of_lt_of_le hst (ht x hx'))
    · rename_i hnlt
      have hts' : t ≤ s := by
        by_contra hc
        exact hnlt (strLt_iff.2 (not_le.1 hc))
      refine List.sorted_cons.2 ⟨?_, ih hts⟩
      intro x hx
      rcases List.mem_cons.1 ((insertStr_perm s ts).mem_iff.1 hx) with rfl | h1
      · exact hts'
      · exact ht x h1

theorem sortStrings_sorted (l : List String) : (sortStrings l).Sorted (· ≤ ·) := by
  have key : ∀ (l acc : List String), acc.Sorted (· ≤ ·) →
      (l.foldl (fun acc s => insertStr s acc) acc).Sorted (· ≤ ·) := by
    intro l
    induction l with
    | nil => intro acc h; exact h
    | cons x xs ih => intro acc h; exact ih (insertStr x acc) (insertStr_sorted h x)
  exact key l [] (by simp)

theorem sorted_le_getLast :
    ∀ {l : List String}, l.Sorted (· ≤ ·) → ∀ (hne : l ≠ []) (x : String), x ∈ l →
      x ≤ l.getLast hne
  | [], _, hne, _, _ => absurd rfl hne
  | [a], _, _, x, hx => by
    rcases List.mem_singleton.1 hx with rfl
    simp [List.getLast]
  | a :: b :: t, hl, hne, x, hx => by
    rcases List.sorted_cons.1 hl with ⟨ha, htail⟩
    have hne2 : b :: t ≠ [] := List.cons_ne_nil b t
    have hgl : (a :: b :: t).getLast hne = (b :: t).getLast hne2 := rfl
    rcases List.mem_cons.1 hx with rfl | hx2
    · rw [hgl]
      exact ha _ (List.getLast_mem hne2)
    · rw [hgl]
      exact sorted_le_getLast htail hne2 x hx2

/-- C7 (amended): `getNextVertexLabel` sorts *all* existing labels; on the
empty graph it yields `"A"`; otherwise, when the greatest label (in
code-unit order) is a single character whose successor is at most `'Z'`,
it returns that successor, and in every other case (successor past `'Z'`,
or greatest label not a single character) it returns `"A"` followed by the
vertex count. -/
theorem c7_next_vertex_label (g : Graph) :
    (g.vertices = [] → (getNextVertexLabel g).1 = "A") ∧
    (∀ m, m ∈ g.vertices → (∀ l ∈ g.vertices, l ≤ m) →
      (getNextVertexLabel g).1 =
        if m.length = 1 ∧ Char.ofNat ((m.data.headD 'A').toNat + 1) ≤ 'Z' then
          String.mk [Char.ofNat ((m.data.headD 'A').toNat + 1)]
        else "A" ++ toString g.vertices.length) := by
  constructor
  · intro hv
    unfold getNextVertexLabel
    rw [hv]
    rfl
  · intro m hm hmax
    have hperm := sortStrings_perm g.vertices
    have hmem : m ∈ sortStrings g.vertices := hperm.mem_iff.2 hm
    have hne : sortStrings g.vertices ≠ [] := fun h => by
      rw [h] at hmem
      exact List.not_mem_nil m hmem
    have hlast : (sortStrings g.vertices).getLast hne = m := by
      apply le_antisymm
      · exact hmax _ (hperm.mem_iff.1 (List.getLast_mem hne))
      · exact sorted_le_getLast (sortStrings_sorted _) hne m hmem
    have hsome : (sortStrings g.vertices).getLast? = some m := by
      rw [List.getLast?_eq_getLast _ hne, hlast]
    have hlen : (sortStrings g.vertices).length = g.vertices.length := hperm.length_eq
    unfold getNextVertexLabel
    dsimp only
    rw [hsome]
    dsimp only
    by_cases h1 : m.length = 1
    · rw [if_pos h1]
      by_cases h2 : Char.ofNat ((m.data.headD 'A').toNat + 1) ≤ 'Z'
      · rw [if_pos h2, if_pos ⟨h1, h2⟩]
      · rw [if_neg h2, if_neg (fun hc => h2 hc.2)]
        dsimp only
        rw [hlen]
    · rw [if_neg h1, if_neg (fun hc => h1 hc.1)]
      dsimp only
      rw [hlen]

/-- Witness for C7 (amended) at the triangle graph: the greatest label is
`"C"`, so the next label is `"D"`. -/
theorem c7_next_vertex_label_witness :
    ("C" ∈ triangleGraph.vertices ∧ ∀ l ∈ triangleGraph.vertices, l ≤ "C") ∧
    (getNextVertexLabel triangleGraph).1 = "D" := by
  have hmax : ∀ l ∈ triangleGraph.vertices, l ≤ "C" := by
    intro l hl
    simp only [triangleGraph, List.mem_cons, List.not_mem_nil, or_false] at hl
    rcases hl with rfl | rfl | rfl
    · exact le_of_lt (strLt_iff.1 (by decide))
    · exact le_of_lt (strLt_iff.1 (by decide))
    · exact le_refl _
  refine ⟨⟨by decide, hmax⟩, ?_⟩
  rw [(c7_next_vertex_label triangleGraph).2 "C" (by decide) hmax]
  decide

/-! ## Consequences of a clean validation run (towards claim C1) -/

/-- The duplicate key of an edge, first orientation. -/
def dupKey1 (e : Edge) : String := e.u ++ "-" ++ e.v

/-- The duplicate key of an edge, second orientation. -/
def dupKey2 (e : Edge) : String := e.v ++ "-" ++ e.u

/-- An empty duplicate scan means no two edges form the same pair (and no
edge collides with the incoming seen-set). -/
theorem dupScan_nil :
    ∀ (seen : List String) (l : List Edge), dupScan seen l = [] →
      (∀ e ∈ l, dupKey1 e ∉ seen ∧ dupKey2 e ∉ seen) ∧
        l.Pairwise (fun e f => ¬ samePair e f)
  | _, [], _ => ⟨fun e he => absurd he (List.not_mem_nil e), List.Pairwise.nil⟩
  | seen, e :: rest, h => by
    unfold dupScan at h
    dsimp only at h
    split at h
    · exact absurd h (List.cons_ne_nil _ _)
    · rename_i hnotin
      push_neg at hnotin
      obtain ⟨ih1, ih2⟩ := dupScan_nil _ rest h
      refine ⟨?_, ?_⟩
      · intro f hf
        rcases List.mem_cons.1 hf with rfl | hf'
        · exact ⟨hnotin.1, hnotin.2⟩
        · obtain ⟨h1, h2⟩ := ih1 f hf'
          constructor
          · intro hc; exact h1 (List.mem_cons.2 (Or.inr (List.mem_cons.2 (Or.inr hc))))
          · intro hc; exact h2 (List.mem_cons.2 (Or.inr (List.mem_cons.2 (Or.inr hc))))
      · refine List.pairwise_cons.2 ⟨?_, ih2⟩
        intro f hf hsp
        obtain ⟨h1, -⟩ := ih1 f hf
        rcases hsp with ⟨hu, hv⟩ | ⟨hu, hv⟩
        · exact h1 (by
            unfold dupKey1
            rw [← hu, ← hv]
            exact List.mem_cons.2 (Or.inl rfl))
        · exact h1 (by
            unfold dupKey1
            rw [← hu, ← hv]
            exact List.mem_cons.2 (Or.inr (List.mem_cons.2 (Or.inl rfl))))

/-- An empty self-loop scan means every edge has distinct endpoints. -/
theorem selfLoopErrors_nil {l : List Edge} (h : selfLoopErrors l = []) :
    ∀ e ∈ l, e.u ≠ e.v := by
  intro e he hc
  have hm : ({ type := ErrType.self_loop
               message := "Self-loop detected at vertex " ++ e.u
               edge := some e, vertex := none } : ValidationError) ∈ selfLoopErrors l := by
    unfold selfLoopErrors
    exact List.mem_flatMap.2 ⟨e, he, by rw [if_pos hc]; exact List.mem_singleton.2 rfl⟩
  rw [h] at hm
  exact List.not_mem_nil _ hm

/-- An empty dangling scan means no edge endpoint is missing. -/
theorem danglingErrors_nil {g : Graph} (h : danglingErrors g = []) : noDangling g := by
  intro e he
  constructor
  · by_contra hc
    have hm : ({ type := ErrType.multi_edge
                 message := "Edge references non-existent vertex: " ++ e.u
                 edge := some e, vertex := none } : ValidationError) ∈ danglingErrors g :=
      mem_danglingErrors.2 ⟨e, he, Or.inl ⟨hc, rfl⟩⟩
    rw [h] at hm
    exact List.not_mem_nil _ hm
  · by_contra hc
    have hm : ({ type := ErrType.multi_edge
                 message := "Edge references non-existent vertex: " ++ e.v
                 edge := some e, vertex := none } : ValidationError) ∈ danglingErrors g :=
      mem_danglingErrors.2 ⟨e, he, Or.inr ⟨hc, rfl⟩⟩
    rw [h] at hm
    exact List.not_mem_nil _ hm

/-- A clean validation run decomposed into its constituent facts. -/
theorem validateGraph_nil {g : Graph} (h : validateGraph g = []) :
    g.vertices ≠ [] ∧
    g.edges.Pairwise (fun e f => ¬ samePair e f) ∧
    (∀ e ∈ g.edges, e.u ≠ e.v) ∧
    noDangling g ∧
    isConnected g = true := by
  have hv : g.vertices ≠ [] := by
    intro hc
    unfold validateGraph at h
    rw [if_pos hc] at h
    exact List.cons_ne_nil _ _ h
  have hscan : scanErrors g = [] := by
    by_contra hc
    rw [(validateGraph_gate g hv).1 hc] at h
    exact hc h
  obtain ⟨h1, h2, h3, h4⟩ : dupScan [] g.edges = [] ∧ selfLoopErrors g.edges = [] ∧
      weightErrors g.edges = [] ∧ danglingErrors g = [] := by
    unfold scanErrors at hscan
    rcases List.append_eq_nil.1 hscan with ⟨hl, h4⟩
    rcases List.append_eq_nil.1 hl with ⟨hl2, h3⟩
    rcases List.append_eq_nil.1 hl2 with ⟨h1, h2⟩
    exact ⟨h1, h2, h3, h4⟩
  have hcon : isConnected g = true := by
    by_contra hc
    have hc' : isConnected g = false := by
      cases hic : isConnected g
      · rfl
      · exact absurd hic hc
    rw [(validateGraph_gate g hv).2 hscan hc'] at h
    exact List.cons_ne_nil _ _ h
  exact ⟨hv, (dupScan_nil [] g.edges h1).2, selfLoopErrors_nil h2, danglingErrors_nil h4, hcon⟩

/-! ## The sorted edge list is a permutation of the input -/

theorem insertEdgeDesc_perm (e : Edge) : ∀ l : List Edge, (insertEdgeDesc e l).Perm (e :: l)
  | [] => List.Perm.refl _
  | f :: fs => by
    unfold insertEdgeDesc
    split
    · exact List.Perm.refl _
    · exact ((insertEdgeDesc_perm e fs).cons f).trans (List.Perm.swap e f fs)

theorem sortEdgesDesc_perm (l : List Edge) : (sortEdgesDesc l).Perm l := by
  have key : ∀ (l acc : List Edge),
      (l.foldl (fun acc e => insertEdgeDesc e acc) acc).Perm (acc ++ l) := by
    intro l
    induction l with
    | nil => intro acc; simp
    | cons x xs ih =>
      intro acc
      have h1 : ((x :: xs).foldl (fun acc e => insertEdgeDesc e acc) acc).Perm
          (insertEdgeDesc x acc ++ xs) := ih (insertEdgeDesc x acc)
      have h2 : (insertEdgeDesc x acc ++ xs).Perm ((x :: acc) ++ xs) :=
        (insertEdgeDesc_perm x acc).append_right xs
      exact (h1.trans h2).trans List.perm_middle.symm
  simpa using key l []

/-! ## Monotonicity of disconnection -/

/-- Removing edges (with the same vertex sequence) cannot connect a
disconnected graph, provided the larger graph has no dangling endpoints. -/
theorem isConnected_false_mono {G H : Graph} (hv : H.vertices = G.vertices)
    (hnd : noDangling G) (hsub : ∀ x ∈ H.edges, x ∈ G.edges)
    (hG : isConnected G = false) : isConnected H = false := by
  by_contra hc
  have hH : isConnected H = true := by
    cases hic : isConnected H
    · exact absurd hic hc
    · rfl
  rcases hvs : G.vertices with _ | ⟨v0, _ | ⟨v1, rest⟩⟩
  · rw [isConnected_small (Or.inl hvs)] at hG; cases hG
  · rw [isConnected_small (Or.inr ⟨v0, hvs⟩)] at hG; cases hG
  · have hndH : noDangling H := by
      intro e he
      obtain ⟨h1, h2⟩ := hnd e (hsub e he)
      rw [hv]
      exact ⟨h1, h2⟩
    have hvsH : H.vertices = v0 :: v1 :: rest := by rw [hv, hvs]
    obtain ⟨hnodup, hall⟩ := (isConnected_iff hndH hvsH).1 hH
    have hstep : ∀ a b, stepRel H a b → stepRel G a b := by
      intro a b hs
      rcases adj_mem_iff.1 hs with ⟨ha, e, he, hor⟩
      exact adj_mem_iff.2 ⟨by rw [← hv]; exact ha, e, hsub e he, hor⟩
    have hallG : ∀ v ∈ G.vertices, Reaches G v0 v := by
      intro v hvm
      have hr : Reaches H v0 v := hall v (by rw [hv]; exact hvm)
      exact Relation.ReflTransGen.mono hstep hr
    have : isConnected G = true :=
      (isConnected_iff hnd hvs).2 ⟨by rw [← hv]; exact hnodup, hallG⟩
    rw [this] at hG
    cases hG

/-- `noDangling` is inherited by any graph with the same vertices and a
subset of the edges. -/
theorem noDangling_sub {G H : Graph} (hv : H.vertices = G.vertices)
    (hnd : noDangling G) (hsub : ∀ x ∈ H.edges, x ∈ G.edges) : noDangling H := by
  intro e he
  obtain ⟨h1, h2⟩ := hnd e (hsub e he)
  rw [hv]
  exact ⟨h1, h2⟩

/-! ## Invariants of the Reverse-Delete loop -/

/-- Structural facts about `rdLoop`: the working graph keeps its vertices,
its edges only shrink (as a sublist), connectivity is preserved, no loop
step is a `complete` step, an empty step list means the graph is
untouched, and the last emitted step's snapshot is the final graph. -/
theorem rdLoop_spec : ∀ (l : List Edge) (cur : Graph) (sn : Nat),
    (rdLoop l cur sn).2.1.vertices = cur.vertices ∧
    (rdLoop l cur sn).2.1.edges.Sublist cur.edges ∧
    (isConnected cur = true → isConnected (rdLoop l cur sn).2.1 = true) ∧
    (∀ st ∈ (rdLoop l cur sn).1, st.type ≠ StepType.complete) ∧
    ((rdLoop l cur sn).1 = [] → (rdLoop l cur sn).2.1 = cur) ∧
    (∀ st, (rdLoop l cur sn).1.getLast? = some st → st.snapshot = (rdLoop l cur sn).2.1)
  | [], cur, sn => by
    refine ⟨rfl, List.Sublist.refl _, fun h => h, ?_, fun _ => rfl, ?_⟩
    · intro st hst
      exact absurd hst (List.not_mem_nil st)
    · intro st hst
      simp [rdLoop] at hst
  | e :: rest, cur, sn => by
    unfold rdLoop
    dsimp only
    split
    · rename_i hany
      split
      · rename_i hdisc
        obtain ⟨i1, i2, i3, i4, i5, i6⟩ := rdLoop_spec rest cur (sn + 2)
        rcases hrec : rdLoop rest cur (sn + 2) with ⟨steps, fin, sn'⟩
        rw [hrec] at i1 i2 i3 i4 i5 i6
        dsimp only at i1 i2 i3 i4 i5 i6 ⊢
        refine ⟨i1, i2, i3, ?_, ?_, ?_⟩
        · intro st hst
          rcases List.mem_cons.1 hst with rfl | hst'
          · intro hc; cases hc
          · rcases List.mem_cons.1 hst' with rfl | hst''
            · intro hc; cases hc
            · exact i4 st hst''
        · intro hc
          exact absurd hc (List.cons_ne_nil _ _)
        · intro st hst
          rw [List.getLast?_cons_cons] at hst
          rcases steps with _ | ⟨s0, srest⟩
          · simp at hst
            rw [← hst]
            dsimp only
            rw [cloneGraph_eq, i5 rfl]
          · rw [List.getLast?_cons_cons] at hst
            exact i6 st hst
      · rename_i hconn
        obtain ⟨i1, i2, i3, i4, i5, i6⟩ := rdLoop_spec rest (removeEdge cur e) (sn + 2)
        rcases hrec : rdLoop rest (removeEdge cur e) (sn + 2) with ⟨steps, fin, sn'⟩
        rw [hrec] at i1 i2 i3 i4 i5 i6
        dsimp only at i1 i2 i3 i4 i5 i6 ⊢
        have hrm : isConnected (removeEdge cur e) = true := by
          cases hic : isConnected (removeEdge cur e)
          · exact absurd hic hconn
          · rfl
        refine ⟨i1, i2.trans (List.filter_sublist _), fun _ => i3 hrm, ?_, ?_, ?_⟩
        · intro st hst
          rcases List.mem_cons.1 hst with rfl | hst'
          · intro hc; cases hc
          · rcases List.mem_cons.1 hst' with rfl | hst''
            · intro hc; cases hc
            · exact i4 st hst''
        · intro hc
          exact absurd hc (List.cons_ne_nil _ _)
        · intro st hst
          rw [List.getLast?_cons_cons] at hst
          rcases steps with _ | ⟨s0, srest⟩
          · simp at hst
            rw [← hst]
            dsimp only
            rw [cloneGraph_eq, i5 rfl]
          · rw [List.getLast?_cons_cons] at hst
            exact i6 st hst
    · exact rdLoop_spec rest cur sn

/-- The bridge invariant of the Reverse-Delete loop: if every edge of the
working graph is either still pending in the remaining sorted list or
already known to be load-bearing, then every edge of the final graph is
load-bearing (removing it disconnects the final graph). -/
theorem rdLoop_bridges : ∀ (l : List Edge) (cur : Graph) (sn : Nat),
    noDangling cur →
    (∀ e ∈ cur.edges, (∃ f ∈ l, samePair e f) ∨ isConnected (removeEdge cur e) = false) →
    ∀ e ∈ (rdLoop l cur sn).2.1.edges,
      isConnected (removeEdge (rdLoop l cur sn).2.1 e) = false
  | [], cur, sn, hnd, hinv => by
    intro e he
    rcases hinv e he with ⟨f, hf, -⟩ | hbr
    · exact absurd hf (List.not_mem_nil f)
    · exact hbr
  | e₀ :: rest, cur, sn, hnd, hinv => by
    unfold rdLoop
    dsimp only
    split
    · rename_i hany
      split
      · rename_i hdisc
        -- keep branch: the working graph is unchanged
        rcases hrec : rdLoop rest cur (sn + 2) with ⟨steps, fin, sn'⟩
        have hres := rdLoop_bridges rest cur (sn + 2) hnd ?_
        · rw [hrec] at hres
          exact hres
        · intro x hx
          rcases hinv x hx with ⟨f, hf, hsp⟩ | hbr
          · rcases List.mem_cons.1 hf with rfl | hf'
            · right
              rw [removeEdge_congr hsp]
              exact hdisc
            · exact Or.inl ⟨f, hf', hsp⟩
          · exact Or.inr hbr
      · rename_i hconn
        -- delete branch: the working graph loses e₀
        rcases hrec : rdLoop rest (removeEdge cur e₀) (sn + 2) with ⟨steps, fin, sn'⟩
        have hndr : noDangling (removeEdge cur e₀) :=
          noDangling_sub (removeEdge_vertices cur e₀) hnd
            (fun x hx => (mem_removeEdge.1 hx).1)
        have hres := rdLoop_bridges rest (removeEdge cur e₀) (sn + 2) hndr ?_
        · rw [hrec] at hres
          exact hres
        · intro x hx
          obtain ⟨hx', hxe⟩ := mem_removeEdge.1 hx
          rcases hinv x hx' with ⟨f, hf, hsp⟩ | hbr
          · rcases List.mem_cons.1 hf with rfl | hf'
            · exact absurd hsp hxe
            · exact Or.inl ⟨f, hf', hsp⟩
          · right
            refine isConnected_false_mono ?_ ?_ ?_ hbr
            · rfl
            · exact noDangling_sub (removeEdge_vertices cur x) hnd
                (fun y hy => (mem_removeEdge.1 hy).1)
            · intro y hy
              obtain ⟨hy1, hy2⟩ := mem_removeEdge.1 hy
              obtain ⟨hy3, -⟩ := mem_removeEdge.1 hy1
              exact mem_removeEdge.2 ⟨hy3, hy2⟩
    · rename_i hany
      rcases hrec : rdLoop rest cur sn with ⟨steps, fin, sn'⟩
      have hres := rdLoop_bridges rest cur sn hnd ?_
      · rw [hrec] at hres
        exact hres
      · intro x hx
        rcases hinv x hx with ⟨f, hf, hsp⟩ | hbr
        · rcases List.mem_cons.1 hf with rfl | hf'
          · exfalso
            apply hany
            exact List.any_eq_true.2 ⟨x, hx, edgesEqual_iff.2 hsp⟩
          · exact Or.inl ⟨f, hf', hsp⟩
        · exact Or.inr hbr

/-! ## Bridging the list graph to a Mathlib `SimpleGraph` -/

/-- The simple graph on the (finite) vertex set of `h`, with an edge
between two vertices whenever some list edge joins them. -/
def toSimpleGraph (h : Graph) : SimpleGraph { x : String // x ∈ h.vertices.toFinset } where
  Adj a b :=
    a.val ≠ b.val ∧
      ∃ e ∈ h.edges, (e.u = a.val ∧ e.v = b.val) ∨ (e.u = b.val ∧ e.v = a.val)
  symm := by
    rintro _ _ ⟨hab, e, he, hor⟩
    exact ⟨fun hc => hab hc.symm, e, he, hor.symm⟩
  loopless := by
    rintro a ⟨hne, -⟩
    exact hne rfl

instance (h : Graph) : DecidableRel (toSimpleGraph h).Adj := fun a b =>
  inferInstanceAs (Decidable (a.val ≠ b.val ∧
    ∃ e ∈ h.edges, (e.u = a.val ∧ e.v = b.val) ∨ (e.u = b.val ∧ e.v = a.val)))

/-- A reachability path in the list graph lifts to the simple graph. -/
theorem reaches_to_reachable {h : Graph} (hsl : ∀ e ∈ h.edges, e.u ≠ e.v)
    {x y : String} (hx : x ∈ h.vertices.toFinset) (hr : Reaches h x y) :
    ∀ hy : y ∈ h.vertices.toFinset, (toSimpleGraph h).Reachable ⟨x, hx⟩ ⟨y, hy⟩ := by
  induction hr with
  | refl => intro hy; exact SimpleGraph.Reachable.refl _
  | tail hr hstep ih =>
    rename_i b c
    intro hy
    have hb : b ∈ h.vertices.toFinset := List.mem_toFinset.2 (adj_mem_iff.1 hstep).1
    have hadj : (toSimpleGraph h).Adj ⟨b, hb⟩ ⟨c, hy⟩ := by
      rcases adj_mem_iff.1 hstep with ⟨hbv, e, he, ⟨h1, h2⟩ | ⟨h1, h2⟩⟩
      · exact ⟨fun hbc => hsl e he (h1.trans (hbc.trans h2)), e, he,
          Or.inl ⟨h1, h2.symm⟩⟩
      · exact ⟨fun hbc => hsl e he (h2.symm.trans (hbc.symm.trans h1.symm)), e, he,
          Or.inr ⟨h2.symm, h1⟩⟩
    exact (ih hb).trans hadj.reachable

/-- In a graph whose edges are pairwise distinct pairs, a walk in the
simple graph with the pair of `e` deleted projects to a reachability path
of `removeEdge h e`. -/
theorem deleted_walk_to_reaches {h : Graph}
    {e : Edge} {a b : { x : String // x ∈ h.vertices.toFinset }}
    (hor : (e.u = a.val ∧ e.v = b.val) ∨ (e.u = b.val ∧ e.v = a.val)) :
    ∀ {p q : { x : String // x ∈ h.vertices.toFinset }},
      (toSimpleGraph h \ SimpleGraph.fromEdgeSet {s(a, b)}).Walk p q →
      Reaches (removeEdge h e) p.val q.val := by
  intro p q w
  induction w with
  | nil => exact Relation.ReflTransGen.refl
  | cons hadj w ih =>
    rename_i p r q
    rw [SimpleGraph.sdiff_adj, SimpleGraph.fromEdgeSet_adj] at hadj
    obtain ⟨⟨hpr, f, hf, horf⟩, hnotdel⟩ := hadj
    have hne : s(p, r) ≠ s(a, b) := by
      intro hc
      exact hnotdel ⟨by rw [hc]; exact Set.mem_singleton _, fun hc2 => hpr (congrArg Subtype.val hc2)⟩
    have hfe : ¬ samePair f e := by
      intro hsp
      apply hne
      have hval : (p.val = a.val ∧ r.val = b.val) ∨ (p.val = b.val ∧ r.val = a.val) := by
        rcases horf with ⟨q1, q2⟩ | ⟨q1, q2⟩ <;>
          rcases hsp with ⟨s1, s2⟩ | ⟨s1, s2⟩ <;>
            rcases hor with ⟨t1, t2⟩ | ⟨t1, t2⟩ <;>
              [skip; skip; skip; skip; skip; skip; skip; skip] <;>
                first
                  | exact Or.inl ⟨(q1.symm.trans s1).trans t1, (q2.symm.trans s2).trans t2⟩
                  | exact Or.inr ⟨(q1.symm.trans s1).trans t1, (q2.symm.trans s2).trans t2⟩
                  | exact Or.inl ⟨(q2.symm.trans s2).trans t2, (q1.symm.trans s1).trans t1⟩
                  | exact Or.inr ⟨(q2.symm.trans s2).trans t2, (q1.symm.trans s1).trans t1⟩
                  | exact Or.inl ⟨(q1.symm.trans s1).trans t2, (q2.symm.trans s2).trans t1⟩
                  | exact Or.inr ⟨(q1.symm.trans s1).trans t2, (q2.symm.trans s2).trans t1⟩
                  | exact Or.inl ⟨(q2.symm.trans s2).trans t1, (q1.symm.trans s1).trans t2⟩
                  | exact Or.inr ⟨(q2.symm.trans s2).trans t1, (q1.symm.trans s1).trans t2⟩
      rcases hval with ⟨h1, h2⟩ | ⟨h1, h2⟩
      · rw [Subtype.ext h1, Subtype.ext h2]
      · rw [Subtype.ext h1, Subtype.ext h2, Sym2.eq_swap]
    have hstep : stepRel (removeEdge h e) p.val r.val := by
      refine adj_mem_iff.2 ⟨p.2 |> List.mem_toFinset.1, f, mem_removeEdge.2 ⟨hf, hfe⟩, ?_⟩
      rcases horf with ⟨q1, q2⟩ | ⟨q1, q2⟩
      · exact Or.inl ⟨q1, q2.symm⟩
      · exact Or.inr ⟨q2, q1.symm⟩
    exact Relation.ReflTransGen.head hstep ih

/-- If both endpoints of `e` stay mutually reachable after `e` is removed,
then every reachability path of `h` transfers to `removeEdge h e`. -/
theorem reaches_removeEdge_transfer {h : Graph} {e : Edge}
    (hd1 : Reaches (removeEdge h e) e.u e.v)
    (hd2 : Reaches (removeEdge h e) e.v e.u)
    {x y : String} (hr : Reaches h x y) : Reaches (removeEdge h e) x y := by
  induction hr with
  | refl => exact Relation.ReflTransGen.refl
  | tail hr hstep ih =>
    rename_i b c
    rcases adj_mem_iff.1 hstep with ⟨hbv, f, hf, hor⟩
    by_cases hsp : samePair f e
    · have hbc : Reaches (removeEdge h e) b c := by
        rcases hor with ⟨h1, h2⟩ | ⟨h1, h2⟩ <;> rcases hsp with ⟨s1, s2⟩ | ⟨s1, s2⟩
        · rw [h1.symm.trans s1, h2.trans s2]
          exact hd1
        · rw [h1.symm.trans s1, h2.trans s2]
          exact hd2
        · rw [h1.symm.trans s2, h2.trans s1]
          exact hd2
        · rw [h1.symm.trans s2, h2.trans s1]
          exact hd1
      exact ih.trans hbc
    · have hstep' : stepRel (removeEdge h e) b c :=
        adj_mem_iff.2 ⟨hbv, f, mem_removeEdge.2 ⟨hf, hsp⟩, hor⟩
      exact Relation.ReflTransGen.tail ih hstep'

/-- A connected graph all of whose edges are load-bearing is a spanning
tree: it has exactly `|vertices| - 1` edges.  Proved by transfer to
Mathlib's `SimpleGraph.IsTree.card_edgeFinset`. -/
theorem bridges_tree_count (h : Graph)
    (hne : h.vertices ≠ [])
    (hnodup : h.vertices.Nodup)
    (hpair : h.edges.Pairwise (fun e f => ¬ samePair e f))
    (hsl : ∀ e ∈ h.edges, e.u ≠ e.v)
    (hnd : noDangling h)
    (hconn : isConnected h = true)
    (hbr : ∀ e ∈ h.edges, isConnected (removeEdge h e) = false) :
    h.edges.length + 1 = h.vertices.length := by
  rcases hvs : h.vertices with _ | ⟨v0, _ | ⟨v1, rest⟩⟩
  · exact absurd hvs hne
  · have hE : h.edges = [] := by
      rcases hcE : h.edges with _ | ⟨e, es⟩
      · rfl
      · exfalso
        have he : e ∈ h.edges := by rw [hcE]; exact List.mem_cons_self _ _
        obtain ⟨hu, hv⟩ := hnd e he
        rw [hvs] at hu hv
        exact hsl e he ((List.mem_singleton.1 hu).trans (List.mem_singleton.1 hv).symm)
    simp [hE]
  · obtain ⟨-, hall⟩ := (isConnected_iff hnd hvs).1 hconn
    have hv0m : v0 ∈ h.vertices := by rw [hvs]; exact List.mem_cons_self _ _
    have hv0F : v0 ∈ h.vertices.toFinset := List.mem_toFinset.2 hv0m
    have hpre : (toSimpleGraph h).Preconnected := by
      intro a b
      have ha := reaches_to_reachable hsl hv0F (hall a.val (List.mem_toFinset.1 a.2)) a.2
      have hb := reaches_to_reachable hsl hv0F (hall b.val (List.mem_toFinset.1 b.2)) b.2
      exact ha.symm.trans hb
    haveI : Nonempty { x : String // x ∈ h.vertices.toFinset } := ⟨⟨v0, hv0F⟩⟩
    have hconSG : (toSimpleGraph h).Connected := ⟨hpre⟩
    have hacyc : (toSimpleGraph h).IsAcyclic := by
      rw [SimpleGraph.isAcyclic_iff_forall_adj_isBridge]
      intro a b hab
      rw [SimpleGraph.isBridge_iff]
      refine ⟨hab, ?_⟩
      intro hreach
      obtain ⟨hne', e, he, hor⟩ := hab
      obtain ⟨w⟩ := hreach
      have hproj : Reaches (removeEdge h e) a.val b.val :=
        deleted_walk_to_reaches hor w
      have hndrm : noDangling (removeEdge h e) :=
        noDangling_sub (removeEdge_vertices h e) hnd (fun x hx => (mem_removeEdge.1 hx).1)
      have hd1 : Reaches (removeEdge h e) e.u e.v := by
        rcases hor with ⟨t1, t2⟩ | ⟨t1, t2⟩
        · rw [t1, t2]; exact hproj
        · rw [t1, t2]; exact reaches_symm hndrm hproj
      have hd2 : Reaches (removeEdge h e) e.v e.u := reaches_symm hndrm hd1
      have hrmconn : isConnected (removeEdge h e) = true := by
        refine (isConnected_iff hndrm (show (removeEdge h e).vertices = v0 :: v1 :: rest
          from hvs)).2 ⟨?_, ?_⟩
        · exact hnodup
        · intro v hvm
          exact reaches_removeEdge_transfer hd1 hd2 (hall v hvm)
      rw [hbr e he] at hrmconn
      cases hrmconn
    have htree : (toSimpleGraph h).IsTree := ⟨hconSG, hacyc⟩
    have hcount := htree.card_edgeFinset
    have hcardV : Fintype.card { x : String // x ∈ h.vertices.toFinset } =
        h.vertices.length := by
      rw [Fintype.card_coe]
      exact List.toFinset_card_of_nodup hnodup
    have hUnodup : (h.edges.map (fun e => s(e.u, e.v))).Nodup := by
      refine List.Pairwise.map _ ?_ hpair
      intro p q hpq hc
      rcases Sym2.eq_iff.1 hc with ⟨h1, h2⟩ | ⟨h1, h2⟩
      · exact hpq (Or.inl ⟨h1, h2⟩)
      · exact hpq (Or.inr ⟨h1, h2⟩)
    have himg : (toSimpleGraph h).edgeFinset.image (Sym2.map Subtype.val) =
        (h.edges.map (fun e => s(e.u, e.v))).toFinset := by
      ext s
      simp only [Finset.mem_image, SimpleGraph.mem_edgeFinset, List.mem_toFinset]
      constructor
      · rintro ⟨t, ht, rfl⟩
        revert ht
        refine Sym2.ind (fun x y ht => ?_) t
        rw [SimpleGraph.mem_edgeSet] at ht
        obtain ⟨hxy, e, he, hor⟩ := ht
        rw [Sym2.map_pair_eq]
        refine List.mem_map.2 ⟨e, he, ?_⟩
        rcases hor with ⟨h1, h2⟩ | ⟨h1, h2⟩
        · rw [h1, h2]
        · rw [h1, h2, Sym2.eq_swap]
      · intro hs
        obtain ⟨e, he, rfl⟩ := List.mem_map.1 hs
        obtain ⟨hu, hv⟩ := hnd e he
        refine ⟨s(⟨e.u, List.mem_toFinset.2 hu⟩, ⟨e.v, List.mem_toFinset.2 hv⟩), ?_, ?_⟩
        · rw [SimpleGraph.mem_edgeSet]
          exact ⟨hsl e he, e, he, Or.inl ⟨rfl, rfl⟩⟩
        · rw [Sym2.map_pair_eq]
    have hinj : Function.Injective (Sym2.map (Subtype.val :
        { x : String // x ∈ h.vertices.toFinset } → String)) :=
      Sym2.map.injective Subtype.val_injective
    have hcardE : (toSimpleGraph h).edgeFinset.card = h.edges.length := by
      have h1 : (toSimpleGraph h).edgeFinset.card =
          ((toSimpleGraph h).edgeFinset.image (Sym2.map Subtype.val)).card :=
        (Finset.card_image_of_injective _ hinj).symm
      rw [h1, himg, List.toFinset_card_of_nodup hUnodup, List.length_map]
    rw [hcardE, hcardV, hvs] at hcount
    exact hcount

/-- The loop emits at least one step for an edge present in the working
graph. -/
theorem rdLoop_first_ne_nil {cur : Graph} {e : Edge} {l : List Edge} {sn : Nat}
    (hany : cur.edges.any (fun x => edgesEqual x e) = true) :
    (rdLoop (e :: l) cur sn).1 ≠ [] := by
  unfold rdLoop
  dsimp only
  rw [if_pos hany]
  split
  · rcases hrec : rdLoop l cur (sn + 2) with ⟨steps, fin, sn'⟩
    simp
  · rcases hrec : rdLoop l (removeEdge cur e) (sn + 2) with ⟨steps, fin, sn'⟩
    simp

/-- C1: for every graph with at least one edge and zero validation
errors, the snapshot of the last non-`complete` step of the trace is a
spanning tree of the input: it has exactly `|vertices| - 1` edges and is
connected. -/
theorem c1_spanning_tree (g : Graph) (hE : g.edges ≠ []) (hval : validateGraph g = []) :
    ∃ s, ((reverseDelete g).filter
        (fun st => st.type != StepType.complete)).getLast? = some s ∧
      s.snapshot.edges.length + 1 = g.vertices.length ∧
      s.snapshot.edges.length = g.vertices.length - 1 ∧
      isConnected s.snapshot = true := by
  obtain ⟨hvne, hpair, hsl, hnd, hconn⟩ := validateGraph_nil hval
  obtain ⟨e1, he1⟩ : ∃ e, e ∈ g.edges := by
    rcases hge : g.edges with _ | ⟨e, es⟩
    · exact absurd hge hE
    · exact ⟨e, List.mem_cons_self _ _⟩
  obtain ⟨v0, v1, vrest, hshape⟩ : ∃ v0 v1 rest, g.vertices = v0 :: v1 :: rest := by
    rcases hv : g.vertices with _ | ⟨v0, _ | ⟨v1, rest⟩⟩
    · exact absurd hv hvne
    · exfalso
      obtain ⟨hu, hv'⟩ := hnd e1 he1
      rw [hv] at hu hv'
      exact hsl e1 he1 ((List.mem_singleton.1 hu).trans (List.mem_singleton.1 hv').symm)
    · exact ⟨v0, v1, rest, rfl⟩
  have hnodup : g.vertices.Nodup := ((isConnected_iff hnd hshape).1 hconn).1
  have hperm := sortEdgesDesc_perm g.edges
  obtain ⟨e0, srest, hsorted⟩ : ∃ e0 srest, sortEdgesDesc g.edges = e0 :: srest := by
    rcases hs : sortEdgesDesc g.edges with _ | ⟨e0, srest⟩
    · exfalso
      rw [hs] at hperm
      rcases hge : g.edges with _ | ⟨e, es⟩
      · exact hE hge
      · rw [hge] at hperm
        exact absurd hperm.length_eq (by simp)
    · exact ⟨e0, srest, rfl⟩
  unfold reverseDelete
  dsimp only
  split
  · rename_i heq
    rw [heq] at hsorted
    exact absurd hsorted (by intro hc; cases hc)
  · rename_i e0' srest' heq
    simp only [cloneGraph_eq]
    rcases hrec : rdLoop (sortEdgesDesc g.edges) g 1 with ⟨steps, fin, sn'⟩
    obtain ⟨i1, i2, i3, i4, i5, i6⟩ := rdLoop_spec (sortEdgesDesc g.edges) g 1
    rw [hrec] at i1 i2 i3 i4 i5 i6
    dsimp only at i1 i2 i3 i4 i5 i6
    -- the loop emitted at least one step
    have he0 : e0' ∈ g.edges := hperm.mem_iff.1 (by rw [heq]; exact List.mem_cons_self _ _)
    have hany : g.edges.any (fun x => edgesEqual x e0') = true :=
      List.any_eq_true.2 ⟨e0', he0, edgesEqual_iff.2 (samePair_refl e0')⟩
    have hsteps_ne : steps ≠ [] := by
      have := @rdLoop_first_ne_nil g e0' srest' 1 hany
      rw [← heq, hrec] at this
      exact this
    -- the final graph is a spanning tree
    have hbridges : ∀ e ∈ fin.edges, isConnected (removeEdge fin e) = false := by
      have := rdLoop_bridges (sortEdgesDesc g.edges) g 1 hnd ?_
      · rw [hrec] at this
        exact this
      · intro e he
        exact Or.inl ⟨e, hperm.mem_iff.2 he, samePair_refl e⟩
    have hcount : fin.edges.length + 1 = g.vertices.length := by
      have := bridges_tree_count fin
        (by rw [i1]; exact hvne)
        (by rw [i1]; exact hnodup)
        (List.Pairwise.sublist i2 hpair)
        (fun e he => hsl e (i2.subset he))
        (noDangling_sub i1 hnd (fun x hx => i2.subset hx))
        (i3 hconn)
        hbridges
      rw [i1] at this
      exact this
    -- compute the filtered trace and its last element
    obtain ⟨s0, srest2, hsteps⟩ : ∃ s0 srest2, steps = s0 :: srest2 := by
      rcases steps with _ | ⟨s0, srest2⟩
      · exact absurd rfl hsteps_ne
      · exact ⟨s0, srest2, rfl⟩
    have hfsteps : steps.filter (fun st => st.type != StepType.complete) = steps :=
      List.filter_eq_self.2 (fun st hst => bne_iff_ne.2 (i4 st hst))
    have hlast : ∃ slast, steps.getLast? = some slast := by
      rw [hsteps]
      exact ⟨(s0 :: srest2).getLast (List.cons_ne_nil s0 srest2),
        List.getLast?_eq_getLast _ _⟩
    obtain ⟨slast, hslast⟩ := hlast
    refine ⟨slast, ?_, ?_, ?_, ?_⟩
    · rw [List.filter_cons_of_pos (by rfl), List.filter_append, hfsteps,
        List.filter_cons_of_neg (by simp), List.filter_nil, List.append_nil]
      rw [hsteps]
      rw [List.getLast?_cons_cons]
      rw [← hsteps]
      exact hslast
    · rw [i6 slast hslast]
      exact hcount
    · rw [i6 slast hslast]
      omega
    · rw [i6 slast hslast]
      exact i3 hconn

/-- Witness for C1 at the triangle graph. -/
theorem c1_spanning_tree_witness :
    (triangleGraph.edges ≠ [] ∧ validateGraph triangleGraph = []) ∧
    ∃ s, ((reverseDelete triangleGraph).filter
        (fun st => st.type != StepType.complete)).getLast? = some s ∧
      s.snapshot.edges.length + 1 = triangleGraph.vertices.length ∧
      s.snapshot.edges.length = triangleGraph.vertices.length - 1 ∧
      isConnected s.snapshot = true :=
  ⟨⟨by decide, by decide⟩, c1_spanning_tree triangleGraph (by decide) (by decide)⟩
